import Mathlib

/-!
Shallow embedding of the tsi package manager core (package model, dependency
resolver, Kahn build order, source fetcher dispatch, install database and the
install orchestrator), translated from `src/tsi/*.py`, together with theorems
settling the specification claims about it.
-/

namespace Tsi

/-- Package manifest fields used by the resolver (`tsi/package.py`).
Only the dependency-related fields matter for dependency resolution. -/
structure Pkg where
  name : String
  dependencies : List String
  build_dependencies : List String
deriving DecidableEq

/-- `Package.get_all_dependencies`: `list(set(dependencies + build_dependencies))`.
The Python set iteration order is unspecified; it is modelled deterministically
via `dedup` (no claim depends on this order, only on duplicate removal). -/
def Pkg.get_all_dependencies (p : Pkg) : List String :=
  (p.dependencies ++ p.build_dependencies).dedup

/-- A repository catalog: the finite partial map that `Repository.get_package`
implements (name to parsed manifest; a lookup miss raises in Python, here
`none`). -/
def Catalog := List (String × Pkg)

/-- `Repository.get_package`, as a partial map: first entry with the given name. -/
def getPackage : Catalog → String → Option Pkg
  | [], _ => none
  | (k, v) :: es, n => if k = n then some v else getPackage es n

/-- The names that have a catalog entry. -/
def catNames (cat : Catalog) : List String := cat.map Prod.fst

/-- Mutable state of `DependencyResolver.resolve`: the `resolved` list, the
`visited` set and the `processing` set (the latter two modelled as lists in
insertion order; only membership is ever queried). -/
structure RState where
  resolved : List String
  visited : List String
  processing : List String
deriving DecidableEq

/-- The two `ValueError`s `resolve` can raise. -/
inductive ResolveError where
  /-- "Circular dependency detected involving {name}" -/
  | cycle (name : String)
  /-- "Could not find package {name}: ..." -/
  | notFound (name : String)
deriving DecidableEq

/-- Outcome of `visit`: success with the updated state, a raised error, or
exhaustion of the recursion fuel (an artifact of the embedding, proved
unreachable below). -/
inductive VRes where
  | fuelOut : VRes
  | err : ResolveError → VRes
  | ok : RState → VRes
deriving DecidableEq

/-- The `for dep in package.get_all_dependencies(): visit(dep)` loop:
sequence `visit1` over the list, stopping at the first non-success. -/
def visitList (visit1 : String → RState → VRes) : List String → RState → VRes
  | [], s => .ok s
  | d :: ds, s =>
    match visit1 d s with
    | .ok s' => visitList visit1 ds s'
    | r => r

/-- `DependencyResolver.resolve.visit` (resolver.py lines 29-55), with explicit
recursion fuel (the Python recursion has no fuel; sufficiency of the fuel used
by `resolve` is proved below). -/
def visit (cat : Catalog) (installed : List String) : Nat → String → RState → VRes
  | 0, _, _ => .fuelOut
  | fuel + 1, n, s =>
    if n ∈ installed then .ok s
    else if n ∈ s.processing then .err (.cycle n)
    else if n ∈ s.visited then .ok s
    else
      match getPackage cat n with
      | none => .err (.notFound n)
      | some pk =>
        match visitList (visit cat installed fuel) pk.get_all_dependencies
            { s with processing := s.processing ++ [n] } with
        | .ok s2 =>
          .ok { resolved := if n ∈ s2.resolved then s2.resolved else s2.resolved ++ [n]
                visited := s2.visited ++ [n]
                processing := s2.processing.erase n }
        | r => r

/-- `DependencyResolver.resolve(package_name, installed)`, starting from empty
`resolved`/`visited`/`processing`. The recursion depth of the Python code is
bounded by the number of catalog entries plus one, so fuel
`(catNames cat).length + 2` is sufficient (proved below). -/
def resolve (cat : Catalog) (installed : List String) (package_name : String) : VRes :=
  visit cat installed ((catNames cat).length + 2) package_name ⟨[], [], []⟩

/-- Dependency edge as the resolver sees it: `d` is among the
dependencies-union-build-dependencies of `p`, read from `p`'s manifest. -/
def depEdge (cat : Catalog) (p d : String) : Prop :=
  ∃ pk, getPackage cat p = some pk ∧ d ∈ pk.get_all_dependencies

/-- Dependency edge restricted to names outside the installed set: the
traversal only follows edges whose both endpoints are not installed. -/
def niEdge (cat : Catalog) (installed : List String) (p d : String) : Prop :=
  p ∉ installed ∧ d ∉ installed ∧ depEdge cat p d

/-- Invariant of the resolver state during traversal: `resolved` mirrors
`visited`; `visited` is duplicate-free, disjoint from `installed` and from
`processing`; every visited name was looked up successfully; and every visited
name's dependencies are installed or appear strictly earlier in `visited`. -/
structure GoodState (cat : Catalog) (installed : List String) (s : RState) : Prop where
  res_eq : s.resolved = s.visited
  nodup : s.visited.Nodup
  not_inst : ∀ m ∈ s.visited, m ∉ installed
  found : ∀ m ∈ s.visited, ∃ pk, getPackage cat m = some pk
  ordered : ∀ l1 m l2 pk, s.visited = l1 ++ m :: l2 → getPackage cat m = some pk →
    ∀ d ∈ pk.get_all_dependencies, d ∈ installed ∨ d ∈ l1
  disj : ∀ m ∈ s.visited, m ∉ s.processing

/-- What a successful `visit n` call guarantees about the state transition:
`processing` is restored, `visited` grows by appending, `n` ends up covered
(installed or visited), and every newly visited name is reachable from `n`
through not-installed names. -/
structure VisitGrow (cat : Catalog) (installed : List String) (n : String)
    (s s' : RState) : Prop where
  proc_eq : s'.processing = s.processing
  vis_grow : ∃ new, s'.visited = s.visited ++ new
  covered : n ∈ installed ∨ n ∈ s'.visited
  reach : ∀ m ∈ s'.visited, m ∉ s.visited →
    n ∉ installed ∧ Relation.ReflTransGen (niEdge cat installed) n m

/-! ### `DependencyResolver.get_build_order` (resolver.py lines 60-96) -/

/-- The dependency names of `p` that lie inside the input list: the edges
`get_build_order` records for dependent `p` (`if dep in packages`); a failed
package lookup contributes nothing (`except Exception: pass`). -/
def depsIn (cat : Catalog) (packages : List String) (p : String) : List String :=
  match getPackage cat p with
  | some pk => pk.get_all_dependencies.filter (· ∈ packages)
  | none => []

/-- `graph[dep]`: the set of dependents of `dep` among the input names.  The
Python value is a set filled by iterating `packages`; it is modelled as a
duplicate-free list (iteration order is unspecified in Python). -/
def kgraph (cat : Catalog) (packages : List String) (dep : String) : List String :=
  (packages.filter (fun q => dep ∈ depsIn cat packages q)).dedup

/-- `in_degree[p]` after the graph-building loop: each occurrence of `p` in
`packages` adds one increment per dependency of `p` inside `packages`. -/
def indInit (cat : Catalog) (packages : List String) (p : String) : Int :=
  (packages.count p : Int) * ((depsIn cat packages p).length : Int)

/-- One iteration of the inner `for dependent in graph[pkg]` loop: decrement
the dependent's in-degree and enqueue it when it reaches zero. -/
def kahnStep (s : List String × (String → Int)) (dependent : String) :
    List String × (String → Int) :=
  let ind2 : String → Int := fun n => if n = dependent then s.2 n - 1 else s.2 n
  if ind2 dependent = 0 then (s.1 ++ [dependent], ind2) else (s.1, ind2)

/-- The inner `for dependent in graph[pkg]` loop. -/
def kahnFold (g : List String) (queue : List String) (ind : String → Int) :
    List String × (String → Int) :=
  g.foldl kahnStep (queue, ind)

/-- The `while queue` loop of `get_build_order`, with explicit fuel (the Python
loop runs until the queue empties; the fuel used below is proved sufficient for
duplicate-free inputs). -/
def kahnLoop (g : String → List String) :
    Nat → List String → List String → (String → Int) → List String
  | 0, _, result, _ => result
  | _ + 1, [], result, _ => result
  | fuel + 1, pkg :: rest, result, ind =>
    let s := kahnFold (g pkg) rest ind
    kahnLoop g fuel s.1 (result ++ [pkg]) s.2

/-- The `ValueError` message of `get_build_order`. -/
def cycleMsg : String := "Circular dependency detected in build order"

/-- `DependencyResolver.get_build_order(packages)`: Kahn topological sort over
the edges between input names, failing when the result is shorter than the
input. -/
def get_build_order (cat : Catalog) (packages : List String) :
    Except String (List String) :=
  let ind0 := indInit cat packages
  let queue0 := packages.filter (fun p => ind0 p = 0)
  let result := kahnLoop (kgraph cat packages) (packages.length + 1) queue0 [] ind0
  if result.length ≠ packages.length then .error cycleMsg else .ok result

/-- Edge `dep → dependent` of the filtered graph `get_build_order` builds:
`p` is an input name whose (successfully looked-up) manifest lists `d` among
dependencies ∪ build_dependencies, with `d` also an input name. -/
def kedge (cat : Catalog) (packages : List String) (d p : String) : Prop :=
  p ∈ packages ∧ d ∈ depsIn cat packages p

/-- `a` appears strictly before `b` in the list `r`. -/
def before (r : List String) (a b : String) : Prop :=
  ∃ l1 l2, r = l1 ++ b :: l2 ∧ a ∈ l1

/-! ### `Database` (database.py) -/

/-- An installed-state store: the deserialized `installed.json` document,
mapping package name to its serialized record (record contents are opaque to
the control flow modelled here). -/
abbrev Db := List (String × String)

/-- The keys of the store: `Database.get_all_installed()`. -/
def dbNames (db : Db) : List String := db.map Prod.fst

/-- `Database.is_installed`. -/
def is_installed (db : Db) (n : String) : Bool := decide (n ∈ dbNames db)

/-- `Database.add_package`: overwrite the record under an existing key, else
append a new entry (Python dict assignment preserves insertion order). -/
def dbAdd (db : Db) (n rec : String) : Db :=
  if n ∈ dbNames db then db.map (fun e => if e.1 = n then (n, rec) else e)
  else db ++ [(n, rec)]

/-- The three conditions `Database._load` can find the backing file in. -/
inductive StoreFile where
  | missing
  | unparsable
  | parsed (entries : List (String × String))

/-- `Database._load` (database.py lines 21-30): a missing file or a parse
failure yields the empty store. -/
def Database.load : StoreFile → Db
  | .missing => []
  | .unparsable => []
  | .parsed entries => entries

/-! ### `PackageManager.install` (manager.py lines 28-91) -/

/-- External collaborators of `PackageManager.install`, abstracted:
the repository lookup, the direct-file-path manifest loader used by the
fallback in `install`, and the record serializer of `Database.add_package`
(version, install path, timestamp). -/
structure Env where
  cat : Catalog
  loadFile : String → Option Pkg
  mkRec : String → String

/-- Observable fetch/build/install/record actions performed by
`PackageManager._install_package`, in order. -/
inductive Step where
  | fetch (n : String)
  | build (n : String)
  | installFiles (n : String)
  | record (n : String)
deriving DecidableEq

/-- How one `PackageManager.install` call ends. -/
inductive Outcome where
  /-- "Package not found: {spec}" — neither catalog entry nor existing file. -/
  | notFoundSpec (spec : String)
  /-- "Package {name} is already installed." — short-circuit, line 44-46. -/
  | alreadyInstalled (n : String)
  /-- `resolver.resolve` raised. -/
  | resolveFailed (e : ResolveError)
  /-- `resolver.get_build_order` raised. -/
  | orderCycle
  /-- `repository.get_package` raised inside `_install_package`. -/
  | depNotFound (n : String)
  /-- "Successfully installed {name}". -/
  | installed (n : String)
  /-- Embedding artifact: resolver fuel exhausted (proved unreachable). -/
  | fuelOut
deriving DecidableEq

/-- `PackageManager._install_package`: look the name up (a failure aborts the
whole install), then fetch, build, install and record.  Fetch/build/install
effects are abstract steps; the record updates the database. -/
def install_package (env : Env) (db : Db) (n : String) :
    Option (List Step × Db) :=
  match getPackage env.cat n with
  | none => none
  | some _ =>
    some ([.fetch n, .build n, .installFiles n, .record n], dbAdd db n (env.mkRec n))

/-- The `for dep_name in build_order` loop of `install`: skip the root name,
skip names already installed (unless forced), install the rest in order,
aborting on the first failure. -/
def installDeps (env : Env) (rootName : String) (force : Bool) :
    List String → List Step → Db → List Step × Db × Option Outcome
  | [], steps, db => (steps, db, none)
  | d :: ds, steps, db =>
    if d = rootName then installDeps env rootName force ds steps db
    else if is_installed db d && !force then installDeps env rootName force ds steps db
    else
      match install_package env db d with
      | none => (steps, db, some (.depNotFound d))
      | some (st, db') => installDeps env rootName force ds (steps ++ st) db'

/-- `PackageManager.install` once the `Package` object is in hand:
already-installed short-circuit, dependency resolution, build order,
dependency loop, then the root package as an explicit final step. -/
def installLoaded (env : Env) (db : Db) (p : Pkg) (force : Bool) :
    List Step × Db × Outcome :=
  if is_installed db p.name && !force then ([], db, .alreadyInstalled p.name)
  else
    match resolve env.cat (dbNames db) p.name with
    | .fuelOut => ([], db, .fuelOut)
    | .err e => ([], db, .resolveFailed e)
    | .ok s =>
      match get_build_order env.cat s.resolved with
      | .error _ => ([], db, .orderCycle)
      | .ok order =>
        match installDeps env p.name force order [] db with
        | (steps, db1, some out) => (steps, db1, out)
        | (steps, db1, none) =>
          match install_package env db1 p.name with
          | none => (steps, db1, .depNotFound p.name)
          | some (st, db2) => (steps ++ st, db2, .installed p.name)

/-- `PackageManager.install(package_spec, force)`: resolve the spec through the
repository, falling back to loading it as a direct manifest file path. -/
def install (env : Env) (db : Db) (spec : String) (force : Bool) :
    List Step × Db × Outcome :=
  match getPackage env.cat spec with
  | some p => installLoaded env db p force
  | none =>
    match env.loadFile spec with
    | some p => installLoaded env db p force
    | none => ([], db, .notFoundSpec spec)

/-! ### `SourceFetcher` (fetcher.py) -/

/-- A directory tree on disk (file contents are irrelevant to the claims). -/
inductive FTree where
  | file : FTree
  | dir (entries : List (String × FTree)) : FTree

/-- The `source` dictionary of a manifest, with the keys `fetch` reads
(`source.get(...)`; an absent key is `none`). -/
structure Source where
  stype : Option String
  url : Option String
  branch : Option String
  tag : Option String
  commit : Option String
  path : Option String

/-- Externally observable filesystem / subprocess effects of a fetch. -/
inductive Eff where
  | rmTree
  | gitClone
  | gitFetchOrigin
  | gitCheckout (ref : String)
  | download (file : String)
  | extractTar
  | extractZip
  | hoistTop
  | copyTree
deriving DecidableEq

/-- The world outside the target directory: content at local paths, the tree a
clone produces, the archive-file name derived from a URL, and the top-level
entries the current archive extracts to. -/
structure World where
  localAt : String → Option FTree
  repoTree : FTree
  urlFile : String → String
  archiveEntries : List (String × FTree)

/-- Mutable filesystem state a fetch call touches: the package's target
directory under `source_dir` (`none` = does not exist) and the archive files
already present in `source_dir`. -/
structure FetchState where
  target : Option FTree
  cache : List String

/-- Checkout commands issued after `git clone` (fetcher.py lines 106-126):
tag, else commit, else the branch only when it is not the default "main". -/
def gitCloneCheckout (s : Source) : List Eff :=
  match s.tag with
  | some t => [.gitCheckout t]
  | none =>
    match s.commit with
    | some c => [.gitCheckout c]
    | none =>
      if s.branch.getD "main" ≠ "main" then [.gitCheckout (s.branch.getD "main")] else []

/-- The ref checked out by the update-in-place branch (fetcher.py lines 76-96):
the first of tag, commit, branch (branch defaulting to "main"). -/
def gitUpdateRef (s : Source) : String :=
  match s.tag with
  | some t => t
  | none =>
    match s.commit with
    | some c => c
    | none => s.branch.getD "main"

/-- `SourceFetcher._fetch_git` (fetcher.py lines 47-128).  The git-availability
probe is assumed to succeed (git present). -/
def fetch_git (s : Source) (force : Bool) (w : World) (st : FetchState) :
    Except String (FetchState × List Eff) :=
  match s.url with
  | none => .error "Git source must include url"
  | some _ =>
    match st.target with
    | some _ =>
      if force then
        .ok ({ st with target := some w.repoTree },
          [.rmTree, .gitClone] ++ gitCloneCheckout s)
      else
        .ok ({ st with target := some w.repoTree },
          [.gitFetchOrigin, .gitCheckout (gitUpdateRef s)])
    | none =>
      .ok ({ st with target := some w.repoTree }, [.gitClone] ++ gitCloneCheckout s)

/-- The hoist check shared by the archive fetchers as implemented for tarballs
(fetcher.py lines 155-162): when extraction produced exactly one top-level
entry that is a directory, lift its children one level up. -/
def hoistEntries : List (String × FTree) → List (String × FTree) × Bool
  | [(_, FTree.dir cs)] => (cs, true)
  | es => (es, false)

/-- `SourceFetcher._fetch_tarball` (fetcher.py lines 130-164): download unless
the archive file is cached (or force), delete the target when it exists and
force is set, extract only into a missing target, then hoist a single
top-level directory. -/
def fetch_tarball (s : Source) (force : Bool) (w : World) (st : FetchState) :
    Except String (FetchState × List Eff) :=
  match s.url with
  | none => .error "Tarball source must include url"
  | some url =>
    let filename := w.urlFile url
    let dlEffs : List Eff := if filename ∉ st.cache ∨ force then [.download filename] else []
    let cache' := if filename ∈ st.cache then st.cache else st.cache ++ [filename]
    let (st1, rmEffs) : FetchState × List Eff :=
      if st.target.isSome ∧ force then ({ st with target := none }, [.rmTree]) else (st, [])
    match st1.target with
    | some _ => .ok ({ st1 with cache := cache' }, dlEffs ++ rmEffs)
    | none =>
      let (entries, hoisted) := hoistEntries w.archiveEntries
      .ok ({ target := some (FTree.dir entries), cache := cache' },
        dlEffs ++ rmEffs ++ [.extractTar] ++ if hoisted then [.hoistTop] else [])

/-- `SourceFetcher._fetch_zip` (fetcher.py lines 166-191): like the tarball
path but the extracted entries are left exactly as the archive laid them out —
there is no single-top-level-directory hoist. -/
def fetch_zip (s : Source) (force : Bool) (w : World) (st : FetchState) :
    Except String (FetchState × List Eff) :=
  match s.url with
  | none => .error "Zip source must include url"
  | some url =>
    let filename := w.urlFile url
    let dlEffs : List Eff := if filename ∉ st.cache ∨ force then [.download filename] else []
    let cache' := if filename ∈ st.cache then st.cache else st.cache ++ [filename]
    let (st1, rmEffs) : FetchState × List Eff :=
      if st.target.isSome ∧ force then ({ st with target := none }, [.rmTree]) else (st, [])
    match st1.target with
    | some _ => .ok ({ st1 with cache := cache' }, dlEffs ++ rmEffs)
    | none =>
      .ok ({ target := some (FTree.dir w.archiveEntries), cache := cache' },
        dlEffs ++ rmEffs ++ [.extractZip])

/-- `SourceFetcher._fetch_local` (fetcher.py lines 193-203): fail when the
configured path does not exist, else delete any existing target and copy the
tree afresh. -/
def fetch_local (s : Source) (w : World) (st : FetchState) :
    Except String (FetchState × List Eff) :=
  match w.localAt (s.path.getD "") with
  | none => .error "Local source path does not exist"
  | some tree =>
    .ok ({ st with target := some tree },
      (if st.target.isSome then [.rmTree] else []) ++ [.copyTree])

/-- `SourceFetcher.fetch` (fetcher.py lines 22-45): an existing target without
force short-circuits the whole dispatch; otherwise dispatch on
`source.get("type", "git")`. -/
def fetch (s : Source) (force : Bool) (w : World) (st : FetchState) :
    Except String (FetchState × List Eff) :=
  let source_type := s.stype.getD "git"
  if st.target.isSome && !force then .ok (st, [])
  else if source_type = "git" then fetch_git s force w st
  else if source_type = "tarball" then fetch_tarball s force w st
  else if source_type = "zip" then fetch_zip s force w st
  else if source_type = "local" then fetch_local s w st
  else .error ("Unknown source type: " ++ source_type)

end Tsi

section Scratch
open Tsi

example :
    resolve [("b", ⟨"b", ["a"], []⟩), ("a", ⟨"a", [], []⟩)] [] "b"
      = .ok ⟨["a", "b"], ["a", "b"], []⟩ := by decide

example :
    resolve [("a", ⟨"a", ["b"], []⟩), ("b", ⟨"b", ["a"], []⟩)] [] "a"
      = .err (.cycle "a") := by decide

example :
    resolve [("a", ⟨"a", ["b"], []⟩)] [] "a" = .err (.notFound "b") := by decide

example :
    resolve [("b", ⟨"b", ["a"], []⟩), ("a", ⟨"a", [], []⟩)] ["a"] "b"
      = .ok ⟨["b"], ["b"], []⟩ := by decide

example :
    get_build_order [("b", ⟨"b", ["a"], []⟩), ("a", ⟨"a", [], []⟩)] ["b", "a"]
      = .ok ["a", "b"] := by rfl

example :
    get_build_order [("a", ⟨"a", ["b"], []⟩), ("b", ⟨"b", ["a"], []⟩)] ["a", "b"]
      = .error cycleMsg := by rfl

-- duplicate input name: the result repeats the name, no cycle error
example :
    get_build_order [("a", ⟨"a", [], []⟩)] ["a", "a"] = .ok ["a", "a"] := by rfl

-- duplicate input with a real dependency: spurious cycle error without a cycle
example :
    get_build_order [("a", ⟨"a", [], []⟩), ("b", ⟨"b", ["a"], []⟩)] ["a", "b", "b"]
      = .error cycleMsg := by rfl

end Scratch

namespace Tsi

/-! ## Claim C9: load failure degrades to the empty store -/

/-- C9: for every database load where the backing store file is missing or its
content is unparsable, construction succeeds with an empty in-memory store:
every `is_installed` query answers false. -/
theorem load_failure_yields_empty_store (f : StoreFile)
    (h : f = StoreFile.missing ∨ f = StoreFile.unparsable) :
    Database.load f = [] ∧ ∀ n, is_installed (Database.load f) n = false := by
  rcases h with h | h <;> subst h <;> exact ⟨rfl, fun _ => rfl⟩

/-- Witness for C9 at the concrete missing-file store. -/
theorem load_failure_yields_empty_store_witness :
    (StoreFile.missing = StoreFile.missing ∨ StoreFile.missing = StoreFile.unparsable) ∧
      (Database.load StoreFile.missing = [] ∧
        ∀ n, is_installed (Database.load StoreFile.missing) n = false) :=
  ⟨Or.inl rfl, load_failure_yields_empty_store StoreFile.missing (Or.inl rfl)⟩

/-! ## Claim C8: installing an already-installed package is a no-op -/

/-- C8: for every package already recorded as installed, `install` without
force performs zero fetch/build/install/record steps and returns the database
unchanged (no record is touched). -/
theorem install_already_installed_no_steps (env : Env) (db : Db) (spec : String)
    (p : Pkg)
    (hres : getPackage env.cat spec = some p ∨
      (getPackage env.cat spec = none ∧ env.loadFile spec = some p))
    (hinst : p.name ∈ dbNames db) :
    install env db spec false = ([], db, .alreadyInstalled p.name) := by
  have hload : installLoaded env db p false = ([], db, .alreadyInstalled p.name) := by
    unfold installLoaded
    simp [is_installed, hinst]
  rcases hres with h | ⟨h1, h2⟩ <;> unfold install
  · rw [h]
    exact hload
  · rw [h1, h2]
    exact hload

/-- Witness for C8: a one-package catalog whose package is recorded installed;
the non-forced install performs nothing. -/
theorem install_already_installed_no_steps_witness :
    (getPackage ([("a", ⟨"a", [], []⟩)] : Catalog) "a" = some ⟨"a", [], []⟩ ∨
        (getPackage ([("a", ⟨"a", [], []⟩)] : Catalog) "a" = none ∧
          (fun _ => none : String → Option Pkg) "a" = some ⟨"a", [], []⟩)) ∧
      ("a" ∈ dbNames [("a", "rec")]) ∧
      install ⟨[("a", ⟨"a", [], []⟩)], fun _ => none, fun _ => "rec"⟩ [("a", "rec")] "a" false
        = ([], [("a", "rec")], .alreadyInstalled "a") :=
  ⟨Or.inl rfl, by decide,
    install_already_installed_no_steps ⟨[("a", ⟨"a", [], []⟩)], fun _ => none, fun _ => "rec"⟩
      [("a", "rec")] "a" ⟨"a", [], []⟩ (Or.inl rfl) (by decide)⟩

/-! ## Claim C5: local-copy fetch semantics -/

/-- C5 counterexample: a local-copy source with an existing target directory
and `force = False` is returned untouched by `fetch` — no deletion, no copy —
because the existing-target short-circuit at the top of `fetch` fires before
the dispatch on source kind.  The reused tree (`FTree.file`) is visibly not a
copy of the configured local path's content (`FTree.dir []`). -/
theorem local_fetch_counterexample :
    fetch ⟨some "local", none, none, none, none, some "/src"⟩ false
        ⟨fun _ => some (FTree.dir []), FTree.file, fun _ => "", []⟩
        ⟨some FTree.file, []⟩
      = .ok (⟨some FTree.file, []⟩, []) ∧
      FTree.file ≠ FTree.dir [] :=
  ⟨rfl, fun h => FTree.noConfusion h⟩

/-- C5 (amended: restricted to calls where the target directory does not exist
or force is set): fetching a local-copy source deletes any existing target and
makes a fresh full copy of the configured local path; an existing target
without force is instead reused unchanged. -/
theorem local_fetch_fresh_copy (s : Source) (force : Bool) (w : World)
    (st : FetchState) (tree : FTree)
    (hty : s.stype = some "local")
    (hgate : st.target = none ∨ force = true)
    (hpath : w.localAt (s.path.getD "") = some tree) :
    fetch s force w st
      = .ok ({ st with target := some tree },
          (if st.target.isSome then [Eff.rmTree] else []) ++ [Eff.copyTree]) := by
  have hg : (st.target.isSome && !force) = false := by
    rcases hgate with h | h
    · rw [h]; rfl
    · rw [h]; simp
  unfold fetch
  simp only [hty, Option.getD_some, hg, Bool.false_eq_true, if_false]
  simp only [String.reduceEq, if_false, if_true, reduceIte]
  unfold fetch_local
  rw [hpath]

/-- Witness for C5 (amended): an existing target with force set is deleted and
replaced by a copy of the local tree. -/
theorem local_fetch_fresh_copy_witness :
    ((⟨some "local", none, none, none, none, some "/p"⟩ : Source).stype = some "local") ∧
      ((⟨some FTree.file, []⟩ : FetchState).target = none ∨ true = true) ∧
      fetch ⟨some "local", none, none, none, none, some "/p"⟩ true
          ⟨fun _ => some (FTree.dir []), FTree.file, fun _ => "", []⟩ ⟨some FTree.file, []⟩
        = .ok (⟨some (FTree.dir []), []⟩, [Eff.rmTree, Eff.copyTree]) :=
  ⟨rfl, Or.inr rfl,
    local_fetch_fresh_copy ⟨some "local", none, none, none, none, some "/p"⟩ true
      ⟨fun _ => some (FTree.dir []), FTree.file, fun _ => "", []⟩ ⟨some FTree.file, []⟩
      (FTree.dir []) rfl (Or.inr rfl) rfl⟩

/-! ## Claim C6: version-control fetch on an existing target -/

/-- C6 counterexample: a git source whose target directory already exists,
fetched without force, is returned untouched with no git invocation at all
(no remote-ref retrieval, no checkout): the short-circuit in `fetch`
fires before `_fetch_git`'s update-in-place branch can run. -/
theorem git_fetch_counterexample :
    fetch ⟨some "git", some "https://h/r.git", none, none, none, none⟩ false
        ⟨fun _ => none, FTree.file, fun _ => "", []⟩ ⟨some (FTree.dir []), []⟩
      = .ok (⟨some (FTree.dir []), []⟩, []) ∧
      Eff.gitFetchOrigin ∉ ([] : List Eff) :=
  ⟨rfl, by decide⟩

/-- C6 (amended): for every version-control source whose target directory
already exists, calling `fetch` without force returns the existing directory
untouched and performs no git operation; the update-in-place code of
`_fetch_git` is unreachable from `fetch` without force. -/
theorem git_fetch_existing_untouched (s : Source) (w : World) (st : FetchState)
    (t : FTree)
    (_hty : s.stype.getD "git" = "git")
    (hex : st.target = some t) :
    fetch s false w st = .ok (st, []) := by
  unfold fetch
  rw [hex]
  rfl

/-- Witness for C6 (amended) at a concrete git source and existing target. -/
theorem git_fetch_existing_untouched_witness :
    ((⟨some "git", some "u", none, none, none, none⟩ : Source).stype.getD "git" = "git") ∧
      ((⟨some (FTree.dir []), []⟩ : FetchState).target = some (FTree.dir [])) ∧
      fetch ⟨some "git", some "u", none, none, none, none⟩ false
          ⟨fun _ => none, FTree.file, fun _ => "", []⟩ ⟨some (FTree.dir []), []⟩
        = .ok (⟨some (FTree.dir []), []⟩, []) :=
  ⟨rfl, rfl,
    git_fetch_existing_untouched ⟨some "git", some "u", none, none, none, none⟩
      ⟨fun _ => none, FTree.file, fun _ => "", []⟩ ⟨some (FTree.dir []), []⟩
      (FTree.dir []) rfl rfl⟩

/-! ## Claim C7: single-top-level-directory hoisting -/

/-- C7 counterexample: a zip archive with exactly one top-level directory is
extracted as-is — the wrapper directory is kept, not hoisted (the hoist block
exists only in `_fetch_tarball`, not `_fetch_zip`). -/
theorem zip_no_hoist_counterexample :
    fetch ⟨some "zip", some "u", none, none, none, none⟩ false
        ⟨fun _ => none, FTree.file, fun _ => "a.zip",
          [("proj", FTree.dir [("x", FTree.file)])]⟩
        ⟨none, []⟩
      = .ok (⟨some (FTree.dir [("proj", FTree.dir [("x", FTree.file)])]), ["a.zip"]⟩,
          [.download "a.zip", .extractZip]) ∧
      FTree.dir [("proj", FTree.dir [("x", FTree.file)])]
        ≠ FTree.dir [("x", FTree.file)] := by
  refine ⟨rfl, fun h => ?_⟩
  injection h with he
  injection he with h1 _
  injection h1 with ha _
  exact absurd ha (by decide)

/-- C7 (amended: hoisting holds for tarball archives only): extracting into a
fresh target, a tarball whose archive has exactly one top-level entry that is
a directory gets that directory's contents hoisted into the target, while a
zip archive is extracted exactly as laid out, with no hoist step. -/
theorem archive_hoist_tarball_only (s : Source) (force : Bool) (w : World)
    (st : FetchState) (url : String)
    (hfresh : st.target = none)
    (hurl : s.url = some url) :
    (∀ nm cs, s.stype = some "tarball" → w.archiveEntries = [(nm, FTree.dir cs)] →
      ∃ st' effs, fetch s force w st = .ok (st', effs) ∧
        st'.target = some (FTree.dir cs) ∧ Eff.hoistTop ∈ effs) ∧
    (s.stype = some "zip" →
      ∃ st' effs, fetch s force w st = .ok (st', effs) ∧
        st'.target = some (FTree.dir w.archiveEntries) ∧ Eff.hoistTop ∉ effs) := by
  have hg : (st.target.isSome && !force) = false := by
    rw [hfresh]; rfl
  constructor
  · intro nm cs hty harch
    unfold fetch
    simp only [hty, Option.getD_some, hg, Bool.false_eq_true, if_false, String.reduceEq,
      reduceIte]
    unfold fetch_tarball
    rw [hurl]
    simp only [harch, hfresh, hoistEntries, Option.isSome_none, Bool.false_eq_true,
      false_and, if_false, if_true]
    refine ⟨_, _, rfl, rfl, ?_⟩
    simp
  · intro hty
    unfold fetch
    simp only [hty, Option.getD_some, hg, Bool.false_eq_true, if_false, String.reduceEq,
      reduceIte]
    unfold fetch_zip
    rw [hurl]
    simp only [hfresh, Option.isSome_none, Bool.false_eq_true, false_and, if_false]
    refine ⟨_, _, rfl, rfl, ?_⟩
    simp only [List.mem_append, List.append_nil]
    rintro (h | h)
    · split at h <;> simp_all
    · simp_all

/-- Witness for C7 (amended), tarball side, at a concrete single-directory
archive. -/
theorem archive_hoist_tarball_only_witness :
    ((⟨none, []⟩ : FetchState).target = none) ∧
      ((⟨some "tarball", some "u", none, none, none, none⟩ : Source).url = some "u") ∧
      (∃ st' effs,
        fetch ⟨some "tarball", some "u", none, none, none, none⟩ false
            ⟨fun _ => none, FTree.file, fun _ => "a.tgz",
              [("proj", FTree.dir [("x", FTree.file)])]⟩ ⟨none, []⟩
          = .ok (st', effs) ∧
        st'.target = some (FTree.dir [("x", FTree.file)]) ∧ Eff.hoistTop ∈ effs) :=
  ⟨rfl, rfl,
    (archive_hoist_tarball_only ⟨some "tarball", some "u", none, none, none, none⟩ false
        ⟨fun _ => none, FTree.file, fun _ => "a.tgz",
          [("proj", FTree.dir [("x", FTree.file)])]⟩ ⟨none, []⟩ "u" rfl rfl).1
      "proj" [("x", FTree.file)] rfl rfl⟩

/-! ## Claim C10: the direct-file-path fallback re-looks the package up by name -/

/-- C10 counterexample: a manifest loaded through the direct-file-path
fallback whose name is not a catalog entry but is already recorded installed:
without force, install short-circuits successfully instead of failing during
dependency resolution with a lookup error. -/
theorem install_file_fallback_counterexample :
    install ⟨[], fun _ => some ⟨"x", [], []⟩, fun _ => "r"⟩ [("x", "r")] "spec.json" false
        = ([], [("x", "r")], .alreadyInstalled "x") ∧
      ∀ e, (Outcome.alreadyInstalled "x") ≠ Outcome.resolveFailed e :=
  ⟨rfl, fun _ h => Outcome.noConfusion h⟩

/-- C10 (amended: the loaded manifest's name is additionally not recorded as
installed): install fails during dependency resolution with a lookup error for
the package's own name, before any fetch/build/install step and without
touching the database — resolution re-looks the package up by name instead of
using the already-loaded manifest. -/
theorem install_file_fallback_lookup_error (env : Env) (db : Db) (spec : String)
    (p : Pkg) (force : Bool)
    (h1 : getPackage env.cat spec = none)
    (h2 : env.loadFile spec = some p)
    (h3 : getPackage env.cat p.name = none)
    (h4 : p.name ∉ dbNames db) :
    install env db spec force = ([], db, .resolveFailed (.notFound p.name)) := by
  have hni : is_installed db p.name = false := by
    simp [is_installed, h4]
  have hres : resolve env.cat (dbNames db) p.name = .err (.notFound p.name) := by
    unfold resolve
    unfold visit
    simp [h3, h4]
  have hload : installLoaded env db p force = ([], db, .resolveFailed (.notFound p.name)) := by
    unfold installLoaded
    simp [hni, hres]
  unfold install
  rw [h1, h2]
  exact hload

/-! ## Resolver traversal lemmas -/

theorem getPackage_mem_catNames {cat : Catalog} {n : String} {pk : Pkg}
    (h : getPackage cat n = some pk) : n ∈ catNames cat := by
  induction cat with
  | nil => simp [getPackage] at h
  | cons e es ih =>
    obtain ⟨k, v⟩ := e
    rw [getPackage] at h
    by_cases hk : k = n
    · subst hk
      exact List.mem_cons_self _ _
    · rw [if_neg hk] at h
      exact List.mem_cons_of_mem _ (ih h)

theorem visitList_shape {visit1 : String → RState → VRes}
    (H : ∀ d s s', visit1 d s = .ok s' →
      s'.processing = s.processing ∧ ∃ new, s'.visited = s.visited ++ new) :
    ∀ ds (s s' : RState), visitList visit1 ds s = .ok s' →
      s'.processing = s.processing ∧ ∃ new, s'.visited = s.visited ++ new := by
  intro ds
  induction ds with
  | nil =>
    intro s s' h
    rw [visitList] at h
    cases h
    exact ⟨rfl, [], (List.append_nil _).symm⟩
  | cons d ds ih =>
    intro s s' h
    rw [visitList] at h
    cases hv : visit1 d s with
    | ok s1 =>
      rw [hv] at h
      obtain ⟨hp1, new1, hv1⟩ := H _ _ _ hv
      obtain ⟨hp2, new2, hv2⟩ := ih _ _ h
      exact ⟨hp2.trans hp1, new1 ++ new2, by rw [hv2, hv1, List.append_assoc]⟩
    | err e => rw [hv] at h; cases h
    | fuelOut => rw [hv] at h; cases h

theorem visit_shape (cat : Catalog) (installed : List String) :
    ∀ fuel n (s s' : RState), visit cat installed fuel n s = .ok s' →
      s'.processing = s.processing ∧ ∃ new, s'.visited = s.visited ++ new := by
  intro fuel
  induction fuel with
  | zero =>
    intro n s s' h
    rw [visit] at h
    cases h
  | succ f ih =>
    intro n s s' h
    rw [visit] at h
    by_cases h1 : n ∈ installed
    · rw [if_pos h1] at h
      cases h
      exact ⟨rfl, [], (List.append_nil _).symm⟩
    rw [if_neg h1] at h
    by_cases h2 : n ∈ s.processing
    · rw [if_pos h2] at h
      cases h
    rw [if_neg h2] at h
    by_cases h3 : n ∈ s.visited
    · rw [if_pos h3] at h
      cases h
      exact ⟨rfl, [], (List.append_nil _).symm⟩
    rw [if_neg h3] at h
    cases hlk : getPackage cat n with
    | none => rw [hlk] at h; cases h
    | some pk =>
      rw [hlk] at h
      dsimp only at h
      cases hvl : visitList (visit cat installed f) pk.get_all_dependencies
          { s with processing := s.processing ++ [n] } with
      | ok s2 =>
        rw [hvl] at h
        obtain ⟨hp2, new2, hv2⟩ := visitList_shape (fun d a b hh => ih d a b hh) _ _ _ hvl
        cases h
        refine ⟨?_, new2 ++ [n], ?_⟩
        · show s2.processing.erase n = s.processing
          rw [hp2]
          show (s.processing ++ [n]).erase n = s.processing
          rw [List.erase_append_right _ h2, List.erase_cons_head, List.append_nil]
        · show s2.visited ++ [n] = s.visited ++ (new2 ++ [n])
          rw [hv2]
          show s.visited ++ new2 ++ [n] = s.visited ++ (new2 ++ [n])
          rw [List.append_assoc]
      | err e => rw [hvl] at h; cases h
      | fuelOut => rw [hvl] at h; cases h

theorem visitList_no_fuelOut {cat : Catalog} {installed : List String} {f : Nat}
    {P0 : List String}
    (H : ∀ d (s : RState), s.processing = P0 → visit cat installed f d s ≠ .fuelOut) :
    ∀ ds (s : RState), s.processing = P0 →
      visitList (visit cat installed f) ds s ≠ .fuelOut := by
  intro ds
  induction ds with
  | nil =>
    intro s hP h
    rw [visitList] at h
    cases h
  | cons d ds ih =>
    intro s hP h
    rw [visitList] at h
    cases hv : visit cat installed f d s with
    | ok s1 =>
      rw [hv] at h
      have hp1 := (visit_shape cat installed f d s s1 hv).1
      exact ih s1 (hp1.trans hP) h
    | err e => rw [hv] at h; cases h
    | fuelOut => exact H d s hP hv

theorem visit_no_fuelOut (cat : Catalog) (installed : List String) :
    ∀ fuel n (s : RState), s.processing.Nodup →
      (∀ x ∈ s.processing, x ∈ catNames cat) →
      (catNames cat).length + 1 ≤ fuel + s.processing.length →
      visit cat installed fuel n s ≠ .fuelOut := by
  intro fuel
  induction fuel with
  | zero =>
    intro n s hnd hsub hle
    have : s.processing.length ≤ (catNames cat).length :=
      (List.subperm_of_subset hnd hsub).length_le
    omega
  | succ f ih =>
    intro n s hnd hsub hle h
    rw [visit] at h
    by_cases h1 : n ∈ installed
    · rw [if_pos h1] at h
      cases h
    rw [if_neg h1] at h
    by_cases h2 : n ∈ s.processing
    · rw [if_pos h2] at h
      cases h
    rw [if_neg h2] at h
    by_cases h3 : n ∈ s.visited
    · rw [if_pos h3] at h
      cases h
    rw [if_neg h3] at h
    cases hlk : getPackage cat n with
    | none => rw [hlk] at h; cases h
    | some pk =>
      rw [hlk] at h
      dsimp only at h
      cases hvl : visitList (visit cat installed f) pk.get_all_dependencies
          { s with processing := s.processing ++ [n] } with
      | ok s2 => rw [hvl] at h; cases h
      | err e => rw [hvl] at h; cases h
      | fuelOut =>
        have hnd' : (s.processing ++ [n]).Nodup := by
          rw [List.nodup_append]
          exact ⟨hnd, List.nodup_singleton n,
            fun x hx hx' => h2 (by rwa [List.mem_singleton.mp hx'] at hx)⟩
        have hsub' : ∀ x ∈ s.processing ++ [n], x ∈ catNames cat := by
          intro x hx
          rcases List.mem_append.mp hx with hx | hx
          · exact hsub x hx
          · rw [List.mem_singleton.mp hx]
            exact getPackage_mem_catNames hlk
        have hle' : (catNames cat).length + 1 ≤ f + (s.processing ++ [n]).length := by
          rw [List.length_append, List.length_singleton]
          omega
        exact visitList_no_fuelOut
          (fun d s'' hP =>
            ih d s'' (hP ▸ hnd') (hP ▸ hsub') (by rw [hP]; exact hle'))
          pk.get_all_dependencies _ rfl hvl

theorem resolve_no_fuelOut (cat : Catalog) (installed : List String) (root : String) :
    resolve cat installed root ≠ .fuelOut := by
  apply visit_no_fuelOut
  · exact List.nodup_nil
  · intro x hx
    cases hx
  · simp

theorem visitList_notFound {cat : Catalog} {installed : List String} {f : Nat}
    (H : ∀ d (s : RState) m, visit cat installed f d s = .err (.notFound m) →
      d ∉ installed ∧ Relation.ReflTransGen (niEdge cat installed) d m ∧
        getPackage cat m = none) :
    ∀ ds (s : RState) m, visitList (visit cat installed f) ds s = .err (.notFound m) →
      ∃ d ∈ ds, d ∉ installed ∧ Relation.ReflTransGen (niEdge cat installed) d m ∧
        getPackage cat m = none := by
  intro ds
  induction ds with
  | nil => intro s m h; rw [visitList] at h; cases h
  | cons d ds ih =>
    intro s m h
    rw [visitList] at h
    cases hv : visit cat installed f d s with
    | ok s1 =>
      rw [hv] at h
      obtain ⟨d', hd', hrest⟩ := ih _ _ h
      exact ⟨d', List.mem_cons_of_mem _ hd', hrest⟩
    | err e =>
      rw [hv] at h
      cases h
      exact ⟨d, List.mem_cons_self _ _, H _ _ _ hv⟩
    | fuelOut => rw [hv] at h; cases h

theorem visit_notFound (cat : Catalog) (installed : List String) :
    ∀ fuel n (s : RState) m, visit cat installed fuel n s = .err (.notFound m) →
      n ∉ installed ∧ Relation.ReflTransGen (niEdge cat installed) n m ∧
        getPackage cat m = none := by
  intro fuel
  induction fuel with
  | zero => intro n s m h; rw [visit] at h; cases h
  | succ f ih =>
    intro n s m h
    rw [visit] at h
    by_cases h1 : n ∈ installed
    · rw [if_pos h1] at h; cases h
    rw [if_neg h1] at h
    by_cases h2 : n ∈ s.processing
    · rw [if_pos h2] at h; cases h
    rw [if_neg h2] at h
    by_cases h3 : n ∈ s.visited
    · rw [if_pos h3] at h; cases h
    rw [if_neg h3] at h
    cases hlk : getPackage cat n with
    | none =>
      rw [hlk] at h
      cases h
      exact ⟨h1, Relation.ReflTransGen.refl, hlk⟩
    | some pk =>
      rw [hlk] at h
      dsimp only at h
      cases hvl : visitList (visit cat installed f) pk.get_all_dependencies
          { s with processing := s.processing ++ [n] } with
      | ok s2 => rw [hvl] at h; cases h
      | err e =>
        rw [hvl] at h
        cases h
        obtain ⟨d, hd, hdni, hreach, hnone⟩ := visitList_notFound ih _ _ _ hvl
        exact ⟨h1,
          Relation.ReflTransGen.head ⟨h1, hdni, pk, hlk, hd⟩ hreach, hnone⟩
      | fuelOut => rw [hvl] at h; cases h

theorem visitList_cycle {cat : Catalog} {installed : List String} {f : Nat}
    (H : ∀ d (s : RState) m, visit cat installed f d s = .err (.cycle m) →
      d ∉ installed ∧ Relation.ReflTransGen (niEdge cat installed) d m ∧
        (m ∈ s.processing ∨ Relation.TransGen (niEdge cat installed) m m)) :
    ∀ ds (s : RState) m, visitList (visit cat installed f) ds s = .err (.cycle m) →
      ∃ d ∈ ds, d ∉ installed ∧ Relation.ReflTransGen (niEdge cat installed) d m ∧
        (m ∈ s.processing ∨ Relation.TransGen (niEdge cat installed) m m) := by
  intro ds
  induction ds with
  | nil => intro s m h; rw [visitList] at h; cases h
  | cons d ds ih =>
    intro s m h
    rw [visitList] at h
    cases hv : visit cat installed f d s with
    | ok s1 =>
      rw [hv] at h
      obtain ⟨d', hd', hni, hre, hdisj⟩ := ih _ _ h
      have hp1 := (visit_shape cat installed f d s s1 hv).1
      rw [hp1] at hdisj
      exact ⟨d', List.mem_cons_of_mem _ hd', hni, hre, hdisj⟩
    | err e =>
      rw [hv] at h
      cases h
      exact ⟨d, List.mem_cons_self _ _, H _ _ _ hv⟩
    | fuelOut => rw [hv] at h; cases h

theorem visit_cycle (cat : Catalog) (installed : List String) :
    ∀ fuel n (s : RState) m, visit cat installed fuel n s = .err (.cycle m) →
      n ∉ installed ∧ Relation.ReflTransGen (niEdge cat installed) n m ∧
        (m ∈ s.processing ∨ Relation.TransGen (niEdge cat installed) m m) := by
  intro fuel
  induction fuel with
  | zero => intro n s m h; rw [visit] at h; cases h
  | succ f ih =>
    intro n s m h
    rw [visit] at h
    by_cases h1 : n ∈ installed
    · rw [if_pos h1] at h; cases h
    rw [if_neg h1] at h
    by_cases h2 : n ∈ s.processing
    · rw [if_pos h2] at h
      cases h
      exact ⟨h1, Relation.ReflTransGen.refl, Or.inl h2⟩
    rw [if_neg h2] at h
    by_cases h3 : n ∈ s.visited
    · rw [if_pos h3] at h; cases h
    rw [if_neg h3] at h
    cases hlk : getPackage cat n with
    | none => rw [hlk] at h; cases h
    | some pk =>
      rw [hlk] at h
      dsimp only at h
      cases hvl : visitList (visit cat installed f) pk.get_all_dependencies
          { s with processing := s.processing ++ [n] } with
      | ok s2 => rw [hvl] at h; cases h
      | err e =>
        rw [hvl] at h
        cases h
        obtain ⟨d, hd, hdni, hreach, hdisj⟩ := visitList_cycle ih _ _ _ hvl
        have hedge : niEdge cat installed n d := ⟨h1, hdni, pk, hlk, hd⟩
        refine ⟨h1, Relation.ReflTransGen.head hedge hreach, ?_⟩
        rcases hdisj with hm | hc
        · rcases List.mem_append.mp hm with hm | hm
          · exact Or.inl hm
          · rw [List.mem_singleton.mp hm] at hreach ⊢
            exact Or.inr (Relation.TransGen.head' hedge hreach)
        · exact Or.inr hc
      | fuelOut => rw [hvl] at h; cases h

theorem append_singleton_decomp {α : Type} {l1 : List α} {m : α} {l2 t : List α} {x : α}
    (h : l1 ++ m :: l2 = t ++ [x]) :
    (l2 = [] ∧ m = x ∧ l1 = t) ∨ ∃ l2', l2 = l2' ++ [x] ∧ t = l1 ++ m :: l2' := by
  rcases List.eq_nil_or_concat' l2 with h2 | ⟨l2', y, h2⟩
  · subst h2
    obtain ⟨he, hs⟩ := List.append_inj' h rfl
    have hm : m = x := by injection hs
    exact Or.inl ⟨rfl, hm, he⟩
  · subst h2
    rw [show l1 ++ m :: (l2' ++ [y]) = (l1 ++ m :: l2') ++ [y] by simp] at h
    obtain ⟨he, hs⟩ := List.append_inj' h rfl
    have hy : y = x := by
      injection hs
    exact Or.inr ⟨l2', by rw [hy], he.symm⟩

theorem visitList_master {cat : Catalog} {installed : List String} {f : Nat}
    (H : ∀ d (s s' : RState), GoodState cat installed s →
      visit cat installed f d s = .ok s' →
      GoodState cat installed s' ∧ VisitGrow cat installed d s s') :
    ∀ ds (s s' : RState), GoodState cat installed s →
      visitList (visit cat installed f) ds s = .ok s' →
      GoodState cat installed s' ∧
      s'.processing = s.processing ∧
      (∃ new, s'.visited = s.visited ++ new) ∧
      (∀ d ∈ ds, d ∈ installed ∨ d ∈ s'.visited) ∧
      (∀ m ∈ s'.visited, m ∉ s.visited →
        ∃ d ∈ ds, d ∉ installed ∧ Relation.ReflTransGen (niEdge cat installed) d m) := by
  intro ds
  induction ds with
  | nil =>
    intro s s' hg h
    rw [visitList] at h
    cases h
    refine ⟨hg, rfl, ⟨[], (List.append_nil _).symm⟩, ?_, ?_⟩
    · intro d hd
      cases hd
    · intro m hm hm'
      exact absurd hm hm'
  | cons d ds ih =>
    intro s s' hg h
    rw [visitList] at h
    cases hv : visit cat installed f d s with
    | ok s1 =>
      rw [hv] at h
      obtain ⟨hg1, grow1⟩ := H _ _ _ hg hv
      obtain ⟨hg', hp', ⟨new', hvis'⟩, hcov', hreach'⟩ := ih _ _ hg1 h
      obtain ⟨new1, hvis1⟩ := grow1.vis_grow
      refine ⟨hg', hp'.trans grow1.proc_eq,
        ⟨new1 ++ new', by rw [hvis', hvis1, List.append_assoc]⟩, ?_, ?_⟩
      · intro d' hd'
        rcases List.mem_cons.mp hd' with hd' | hd'
        · subst hd'
          rcases grow1.covered with hc | hc
          · exact Or.inl hc
          · exact Or.inr (by rw [hvis']; exact List.mem_append_left _ hc)
        · exact hcov' d' hd'
      · intro m hm hmn
        by_cases hm1 : m ∈ s1.visited
        · obtain ⟨hni, hre⟩ := grow1.reach m hm1 hmn
          exact ⟨d, List.mem_cons_self _ _, hni, hre⟩
        · obtain ⟨d', hd', hrest⟩ := hreach' m hm hm1
          exact ⟨d', List.mem_cons_of_mem _ hd', hrest⟩
    | err e => rw [hv] at h; cases h
    | fuelOut => rw [hv] at h; cases h

theorem visit_master (cat : Catalog) (installed : List String) :
    ∀ fuel n (s s' : RState), GoodState cat installed s →
      visit cat installed fuel n s = .ok s' →
      GoodState cat installed s' ∧ VisitGrow cat installed n s s' := by
  intro fuel
  induction fuel with
  | zero => intro n s s' _ h; rw [visit] at h; cases h
  | succ f ih =>
    intro n s s' hg h
    rw [visit] at h
    by_cases h1 : n ∈ installed
    · rw [if_pos h1] at h
      cases h
      exact ⟨hg, rfl, ⟨[], (List.append_nil _).symm⟩, Or.inl h1,
        fun m hm hm' => absurd hm hm'⟩
    rw [if_neg h1] at h
    by_cases h2 : n ∈ s.processing
    · rw [if_pos h2] at h; cases h
    rw [if_neg h2] at h
    by_cases h3 : n ∈ s.visited
    · rw [if_pos h3] at h
      cases h
      exact ⟨hg, rfl, ⟨[], (List.append_nil _).symm⟩, Or.inr h3,
        fun m hm hm' => absurd hm hm'⟩
    rw [if_neg h3] at h
    cases hlk : getPackage cat n with
    | none => rw [hlk] at h; cases h
    | some pk =>
      rw [hlk] at h
      dsimp only at h
      cases hvl : visitList (visit cat installed f) pk.get_all_dependencies
          { s with processing := s.processing ++ [n] } with
      | ok s2 =>
        rw [hvl] at h
        have hg1 : GoodState cat installed { s with processing := s.processing ++ [n] } := by
          refine ⟨hg.res_eq, hg.nodup, hg.not_inst, hg.found, hg.ordered, ?_⟩
          intro m hm hmp
          rcases List.mem_append.mp hmp with hmp | hmp
          · exact hg.disj m hm hmp
          · rw [List.mem_singleton.mp hmp] at hm
            exact h3 hm
        obtain ⟨hg2, hp2, ⟨new2, hv2⟩, hcov2, hreach2⟩ := visitList_master ih _ _ _ hg1 hvl
        have hn2proc : n ∈ s2.processing := by
          rw [hp2]
          exact List.mem_append_right _ (List.mem_singleton_self n)
        have hn2 : n ∉ s2.visited := fun hc => hg2.disj n hc hn2proc
        have hproc' : s2.processing.erase n = s.processing := by
          rw [hp2]
          show (s.processing ++ [n]).erase n = s.processing
          rw [List.erase_append_right _ h2, List.erase_cons_head, List.append_nil]
        have hres' : (if n ∈ s2.resolved then s2.resolved else s2.resolved ++ [n])
            = s2.visited ++ [n] := by
          rw [hg2.res_eq, if_neg hn2]
        cases h
        constructor
        · -- GoodState of the final state
          refine ⟨hres', ?_, ?_, ?_, ?_, ?_⟩
          · rw [List.nodup_append]
            exact ⟨hg2.nodup, List.nodup_singleton n,
              fun x hx hx' => hn2 (by rwa [List.mem_singleton.mp hx'] at hx)⟩
          · intro m hm
            rcases List.mem_append.mp hm with hm | hm
            · exact hg2.not_inst m hm
            · rw [List.mem_singleton.mp hm]
              exact h1
          · intro m hm
            rcases List.mem_append.mp hm with hm | hm
            · exact hg2.found m hm
            · rw [List.mem_singleton.mp hm]
              exact ⟨pk, hlk⟩
          · intro l1 m l2 pk' hdec hlkm e he
            rcases append_singleton_decomp
                (show l1 ++ m :: l2 = s2.visited ++ [n] from hdec.symm) with
              ⟨_, hm, hl1⟩ | ⟨l2', _, ht⟩
            · subst hm
              rw [hlk] at hlkm
              injection hlkm with hpk
              subst hpk
              rcases hcov2 e he with hc | hc
              · exact Or.inl hc
              · exact Or.inr (hl1 ▸ hc)
            · exact hg2.ordered l1 m l2' pk' ht hlkm e he
          · intro m hm
            rw [hproc']
            rcases List.mem_append.mp hm with hm | hm
            · intro hc
              exact hg2.disj m hm (by rw [hp2]; exact List.mem_append_left _ hc)
            · rw [List.mem_singleton.mp hm]
              exact h2
        · -- VisitGrow
          refine ⟨hproc', ⟨new2 ++ [n], by rw [hv2]; simp⟩, ?_, ?_⟩
          · exact Or.inr (List.mem_append_right _ (List.mem_singleton_self n))
          · intro m hm hmn
            rcases List.mem_append.mp hm with hm | hm
            · obtain ⟨d, hd, hdni, hre⟩ := hreach2 m hm hmn
              exact ⟨h1, Relation.ReflTransGen.head ⟨h1, hdni, pk, hlk, hd⟩ hre⟩
            · rw [List.mem_singleton.mp hm]
              exact ⟨h1, Relation.ReflTransGen.refl⟩
      | err e => rw [hvl] at h; cases h
      | fuelOut => rw [hvl] at h; cases h

theorem resolve_ok_spec (cat : Catalog) (installed : List String) (root : String)
    (s' : RState) (h : resolve cat installed root = .ok s') :
    GoodState cat installed s' ∧ s'.processing = [] ∧
    (root ∈ installed ∨ root ∈ s'.visited) ∧
    (∀ m ∈ s'.visited, Relation.ReflTransGen (niEdge cat installed) root m) ∧
    (∀ m, Relation.ReflTransGen (niEdge cat installed) root m → m ∉ installed →
      m ∈ s'.visited) := by
  have hg0 : GoodState cat installed ⟨[], [], []⟩ := by
    refine ⟨rfl, List.nodup_nil, ?_, ?_, ?_, ?_⟩
    · intro m hm
      cases hm
    · intro m hm
      cases hm
    · intro l1 m l2 pk hdec _ d _
      exact absurd hdec.symm (by simp)
    · intro m hm
      cases hm
  obtain ⟨hg, grow⟩ := visit_master cat installed _ root ⟨[], [], []⟩ s' hg0 h
  have hproc : s'.processing = [] := grow.proc_eq
  have hreach : ∀ m ∈ s'.visited, Relation.ReflTransGen (niEdge cat installed) root m :=
    fun m hm => (grow.reach m hm (List.not_mem_nil m)).2
  refine ⟨hg, hproc, grow.covered, hreach, ?_⟩
  intro m hpath hmni
  induction hpath with
  | refl =>
    rcases grow.covered with hc | hc
    · exact absurd hc hmni
    · exact hc
  | tail hpath hedge ih =>
    obtain ⟨hx, hm, pk, hlkx, hdm⟩ := hedge
    have hxvis := ih hx
    obtain ⟨t1, t2, hdec⟩ := List.append_of_mem hxvis
    rcases hg.ordered t1 _ t2 pk hdec hlkx _ hdm with hc | hc
    · exact absurd hc hm
    · exact hdec ▸ List.mem_append_left _ hc

theorem resolve_notFound_spec (cat : Catalog) (installed : List String) (root m : String)
    (h : resolve cat installed root = .err (.notFound m)) :
    root ∉ installed ∧ Relation.ReflTransGen (niEdge cat installed) root m ∧
      getPackage cat m = none :=
  visit_notFound cat installed _ root ⟨[], [], []⟩ m h

theorem resolve_cycle_spec (cat : Catalog) (installed : List String) (root m : String)
    (h : resolve cat installed root = .err (.cycle m)) :
    root ∉ installed ∧ Relation.ReflTransGen (niEdge cat installed) root m ∧
      Relation.TransGen (niEdge cat installed) m m := by
  obtain ⟨h1, h2, h3⟩ := visit_cycle cat installed _ root ⟨[], [], []⟩ m h
  rcases h3 with h3 | h3
  · cases h3
  · exact ⟨h1, h2, h3⟩

/-! ## Order-theoretic helpers: strict position order in a duplicate-free list -/

theorem before_irrefl {r : List String} (hn : r.Nodup) (a : String) : ¬ before r a a := by
  rintro ⟨l1, l2, hdec, ha⟩
  rw [hdec] at hn
  exact List.disjoint_of_nodup_append hn ha (List.mem_cons_self a l2)

theorem before_trans {r : List String} (hn : r.Nodup) {a b c : String}
    (h1 : before r a b) (h2 : before r b c) : before r a c := by
  obtain ⟨l1, l2, hd1, ha⟩ := h1
  obtain ⟨l1', l2', hd2, hb⟩ := h2
  have hd3 : l1 ++ b :: l2 = l1' ++ c :: l2' := hd1.symm.trans hd2
  rcases List.append_eq_append_iff.mp hd3 with ⟨a', hA, _⟩ | ⟨c', hA, hB⟩
  · exact ⟨l1', l2', hd2, hA ▸ List.mem_append_left a' ha⟩
  · cases c' with
    | nil =>
      rw [List.append_nil] at hA
      exact ⟨l1', l2', hd2, hA ▸ ha⟩
    | cons x cs =>
      exfalso
      rw [hd1, hA, List.append_assoc] at hn
      exact List.disjoint_of_nodup_append hn hb
        (List.mem_append_right _ (List.mem_cons_self b l2))

theorem not_transGen_of_before {r : List String} (hn : r.Nodup)
    {e : String → String → Prop} (he : ∀ a b, e a b → before r a b) :
    ∀ c, ¬ Relation.TransGen e c c := by
  intro c hc
  have key : ∀ x y, Relation.TransGen e x y → before r x y := by
    intro x y hxy
    induction hxy with
    | single h => exact he _ _ h
    | tail _ h ih => exact before_trans hn ih (he _ _ h)
  exact before_irrefl hn c (key c c hc)

theorem exists_cycle_of_forall_pred {S : List String} (hne : S ≠ [])
    {e : String → String → Prop} (h : ∀ p ∈ S, ∃ d, d ∈ S ∧ e d p) :
    ∃ n, Relation.TransGen e n n := by
  have hch : ∀ p : {x // x ∈ S}, ∃ d : {x // x ∈ S}, e d.1 p.1 := by
    rintro ⟨p, hp⟩
    obtain ⟨d, hd, hed⟩ := h p hp
    exact ⟨⟨d, hd⟩, hed⟩
  choose F hF using hch
  obtain ⟨s0, hs0⟩ : ∃ x, x ∈ S := by
    cases S with
    | nil => exact absurd rfl hne
    | cons a t => exact ⟨a, List.mem_cons_self a t⟩
  set f : Nat → {x // x ∈ S} := fun k => F^[k] ⟨s0, hs0⟩ with hf
  have hstep : ∀ k, e (f (k + 1)).1 (f k).1 := by
    intro k
    rw [hf]
    simp only [Function.iterate_succ_apply']
    exact hF _
  have hchain : ∀ i j, i < j → Relation.TransGen e (f j).1 (f i).1 := by
    intro i j
    induction j with
    | zero => omega
    | succ j ih =>
      intro hij
      rcases Nat.lt_succ_iff_lt_or_eq.mp hij with hij' | hij'
      · exact Relation.TransGen.head (hstep j) (ih hij')
      · subst hij'
        exact Relation.TransGen.single (hstep i)
  have hmaps : ∀ k ∈ Finset.range (S.toFinset.card + 1), (f k).1 ∈ S.toFinset :=
    fun k _ => List.mem_toFinset.mpr (f k).2
  obtain ⟨i, _, j, _, hij, hfij⟩ :=
    Finset.exists_ne_map_eq_of_card_lt_of_maps_to
      (by simp [Finset.card_range]) hmaps
  rcases Nat.lt_or_ge i j with hlt | hge
  · exact ⟨(f j).1, hfij ▸ hchain i j hlt⟩
  · have hlt : j < i := by omega
    exact ⟨(f i).1, hfij ▸ hchain j i hlt⟩

theorem visitList_congr {v1 v2 : String → RState → VRes}
    (h : ∀ d s, v1 d s = v2 d s) :
    ∀ ds s, visitList v1 ds s = visitList v2 ds s := by
  intro ds
  induction ds with
  | nil => intro s; rfl
  | cons d ds ih =>
    intro s
    rw [visitList, visitList, h d s]
    cases v2 d s with
    | ok s1 => exact ih s1
    | err e => rfl
    | fuelOut => rfl

theorem visit_congr {cat cat' : Catalog} {installed : List String}
    (hagree : ∀ n, n ∉ installed → getPackage cat n = getPackage cat' n) :
    ∀ fuel n s, visit cat installed fuel n s = visit cat' installed fuel n s := by
  intro fuel
  induction fuel with
  | zero => intro n s; rfl
  | succ f ih =>
    intro n s
    rw [visit, visit]
    by_cases h1 : n ∈ installed
    · rw [if_pos h1, if_pos h1]
    rw [if_neg h1, if_neg h1]
    by_cases h2 : n ∈ s.processing
    · rw [if_pos h2, if_pos h2]
    rw [if_neg h2, if_neg h2]
    by_cases h3 : n ∈ s.visited
    · rw [if_pos h3, if_pos h3]
    rw [if_neg h3, if_neg h3]
    rw [← hagree n h1]
    cases getPackage cat n with
    | none => rfl
    | some pk =>
      dsimp only
      rw [visitList_congr (fun d s => ih d s)]

theorem visit_fuel_mono {cat : Catalog} {installed : List String} :
    ∀ f f' n (s : RState), f ≤ f' → visit cat installed f n s ≠ .fuelOut →
      visit cat installed f' n s = visit cat installed f n s := by
  intro f
  induction f with
  | zero =>
    intro f' n s _ hno
    exact absurd rfl hno
  | succ g ih =>
    intro f' n s hle hno
    obtain ⟨g', rfl⟩ : ∃ g', f' = g' + 1 := ⟨f' - 1, by omega⟩
    have hgg : g ≤ g' := by omega
    rw [visit, visit] at *
    by_cases h1 : n ∈ installed
    · rw [if_pos h1, if_pos h1]
    rw [if_neg h1, if_neg h1]
    by_cases h2 : n ∈ s.processing
    · rw [if_pos h2, if_pos h2]
    rw [if_neg h2, if_neg h2]
    by_cases h3 : n ∈ s.visited
    · rw [if_pos h3, if_pos h3]
    rw [if_neg h3, if_neg h3]
    cases hlk : getPackage cat n with
    | none => rfl
    | some pk =>
      dsimp only
      rw [if_neg h1, if_neg h2, if_neg h3, hlk] at hno
      dsimp only at hno
      have hvl : visitList (visit cat installed g) pk.get_all_dependencies
          { s with processing := s.processing ++ [n] } ≠ .fuelOut := by
        intro hc
        rw [hc] at hno
        exact hno rfl
      have key : ∀ ds (t : RState), visitList (visit cat installed g) ds t ≠ .fuelOut →
          visitList (visit cat installed g') ds t
            = visitList (visit cat installed g) ds t := by
        intro ds
        induction ds with
        | nil => intro t _; rfl
        | cons d ds ihl =>
          intro t ht
          rw [visitList, visitList]
          have hd : visit cat installed g d t ≠ .fuelOut := by
            intro hc
            rw [visitList, hc] at ht
            exact ht rfl
          rw [ih g' d t hgg hd]
          cases hv : visit cat installed g d t with
          | ok s1 =>
            apply ihl
            rw [visitList, hv] at ht
            exact ht
          | err e => rfl
          | fuelOut => exact absurd hv hd
      rw [key pk.get_all_dependencies _ hvl]

theorem niEdge_nil_iff (cat : Catalog) (p d : String) :
    niEdge cat [] p d ↔ depEdge cat p d :=
  ⟨fun ⟨_, _, h⟩ => h, fun h => ⟨List.not_mem_nil p, List.not_mem_nil d, h⟩⟩

/-! ## Claim C1: resolve computes the reachable closure in post-order -/

/-- C1 counterexample: the catalog in which a depends on b but b has no entry
is cycle-free, yet `resolve("a", ∅)` raises a lookup error instead of
returning the reachable names. -/
theorem resolve_closure_counterexample :
    (¬ ∃ c, Relation.TransGen (depEdge [("a", ⟨"a", ["b"], []⟩)]) c c) ∧
    resolve [("a", ⟨"a", ["b"], []⟩)] [] "a" = .err (.notFound "b") ∧
    ∀ s, resolve [("a", ⟨"a", ["b"], []⟩)] [] "a" ≠ .ok s := by
  have hchar : ∀ p d, depEdge [("a", ⟨"a", ["b"], []⟩)] p d → p = "a" ∧ d = "b" := by
    rintro p d ⟨pk, hlk, hd⟩
    rw [getPackage] at hlk
    by_cases hp : "a" = p
    · rw [if_pos hp] at hlk
      injection hlk with hpk
      subst hpk
      have : d ∈ ["b"] := hd
      exact ⟨hp.symm, List.mem_singleton.mp this⟩
    · rw [if_neg hp] at hlk
      cases hlk
  refine ⟨?_, by decide, ?_⟩
  · rintro ⟨c, hc⟩
    have key : ∀ x y, Relation.TransGen (depEdge [("a", ⟨"a", ["b"], []⟩)]) x y →
        x = "a" ∧ y = "b" := by
      intro x y hxy
      induction hxy with
      | single h => exact hchar _ _ h
      | tail _ h ih =>
        obtain ⟨hm, _⟩ := hchar _ _ h
        exact ⟨ih.1, (hchar _ _ h).2⟩
    obtain ⟨h1, h2⟩ := key c c hc
    rw [h1] at h2
    exact absurd h2 (by decide)
  · intro s hc
    rw [show resolve [("a", ⟨"a", ["b"], []⟩)] [] "a" = .err (.notFound "b") by decide]
      at hc
    cases hc

/-- C1 (amended: every name reachable from the root must have a catalog entry):
for a cycle-free catalog closed under reachability from the root,
`resolve(root, ∅)` succeeds and returns exactly the names reachable from the
root through dependencies ∪ build_dependencies, in post-order: every returned
name's dependencies appear in the result strictly before the name itself. -/
theorem resolve_closure_postorder (cat : Catalog) (root : String)
    (hacyc : ¬ ∃ c, Relation.TransGen (depEdge cat) c c)
    (hclosed : ∀ m, Relation.ReflTransGen (depEdge cat) root m →
      (getPackage cat m).isSome) :
    ∃ s, resolve cat [] root = .ok s ∧
      (∀ m, m ∈ s.resolved ↔ Relation.ReflTransGen (depEdge cat) root m) ∧
      (∀ l1 m l2 pk, s.resolved = l1 ++ m :: l2 → getPackage cat m = some pk →
        ∀ d ∈ pk.get_all_dependencies, d ∈ l1) := by
  cases hr : resolve cat [] root with
  | fuelOut => exact absurd hr (resolve_no_fuelOut cat [] root)
  | err e =>
    cases e with
    | notFound m =>
      obtain ⟨-, hpath, hnone⟩ := resolve_notFound_spec cat [] root m hr
      have : Relation.ReflTransGen (depEdge cat) root m :=
        hpath.mono (fun a b hab => (niEdge_nil_iff cat a b).mp hab)
      have hcl := hclosed m this
      rw [hnone] at hcl
      exact absurd hcl (by simp)
    | cycle m =>
      obtain ⟨-, -, hcyc⟩ := resolve_cycle_spec cat [] root m hr
      exact absurd ⟨m, hcyc.mono (fun a b hab => (niEdge_nil_iff cat a b).mp hab)⟩ hacyc
  | ok s =>
    obtain ⟨hg, -, hcov, hreach, hclo⟩ := resolve_ok_spec cat [] root s hr
    refine ⟨s, rfl, ?_, ?_⟩
    · intro m
      rw [hg.res_eq]
      constructor
      · intro hm
        exact (hreach m hm).mono (fun a b hab => (niEdge_nil_iff cat a b).mp hab)
      · intro hm
        exact hclo m (hm.mono (fun a b hab => (niEdge_nil_iff cat a b).mpr hab))
          (List.not_mem_nil m)
    · intro l1 m l2 pk hdec hlkm d hd
      rw [hg.res_eq] at hdec
      rcases hg.ordered l1 m l2 pk hdec hlkm d hd with hc | hc
      · cases hc
      · exact hc

/-- Witness for C1 (amended) at the concrete two-package chain b → a. -/
theorem resolve_closure_postorder_witness :
    ∃ s, resolve [("b", ⟨"b", ["a"], []⟩), ("a", ⟨"a", [], []⟩)] [] "b" = .ok s ∧
      (∀ m, m ∈ s.resolved ↔
        Relation.ReflTransGen (depEdge [("b", ⟨"b", ["a"], []⟩), ("a", ⟨"a", [], []⟩)])
          "b" m) ∧
      (∀ l1 m l2 pk, s.resolved = l1 ++ m :: l2 →
        getPackage [("b", ⟨"b", ["a"], []⟩), ("a", ⟨"a", [], []⟩)] m = some pk →
        ∀ d ∈ pk.get_all_dependencies, d ∈ l1) := by
  have hchar : ∀ p d,
      depEdge [("b", ⟨"b", ["a"], []⟩), ("a", ⟨"a", [], []⟩)] p d →
      p = "b" ∧ d = "a" := by
    rintro p d ⟨pk, hlk, hd⟩
    rw [getPackage] at hlk
    by_cases hp : "b" = p
    · rw [if_pos hp] at hlk
      injection hlk with hpk
      subst hpk
      have : d ∈ ["a"] := hd
      exact ⟨hp.symm, List.mem_singleton.mp this⟩
    · rw [if_neg hp, getPackage] at hlk
      by_cases hp' : "a" = p
      · rw [if_pos hp'] at hlk
        injection hlk with hpk
        subst hpk
        have : d ∈ ([] : List String) := hd
        cases this
      · rw [if_neg hp'] at hlk
        cases hlk
  apply resolve_closure_postorder
  · rintro ⟨c, hc⟩
    have key : ∀ x y,
        Relation.TransGen (depEdge [("b", ⟨"b", ["a"], []⟩), ("a", ⟨"a", [], []⟩)]) x y →
        x = "b" ∧ y = "a" := by
      intro x y hxy
      induction hxy with
      | single h => exact hchar _ _ h
      | tail _ h ih => exact ⟨ih.1, (hchar _ _ h).2⟩
    obtain ⟨h1, h2⟩ := key c c hc
    rw [h1] at h2
    exact absurd h2 (by decide)
  · intro m hm
    have : m = "b" ∨ m = "a" := by
      induction hm with
      | refl => exact Or.inl rfl
      | tail _ h _ => exact Or.inr (hchar _ _ h).2
    rcases this with h | h <;> subst h <;> decide

/-! ## Claim C4: cycle detection -/

/-- C4 counterexample: a catalog with a reachable uninstalled cycle a ↔ b can
still fail with a not-found error instead of a cycle error, when a missing
name is visited before the cycle is reached. -/
theorem resolve_cycle_counterexample :
    resolve [("r", ⟨"r", ["m", "a"], []⟩), ("a", ⟨"a", ["b"], []⟩),
        ("b", ⟨"b", ["a"], []⟩)] [] "r" = .err (.notFound "m") ∧
    Relation.TransGen
      (niEdge [("r", ⟨"r", ["m", "a"], []⟩), ("a", ⟨"a", ["b"], []⟩),
        ("b", ⟨"b", ["a"], []⟩)] []) "a" "a" ∧
    Relation.ReflTransGen
      (niEdge [("r", ⟨"r", ["m", "a"], []⟩), ("a", ⟨"a", ["b"], []⟩),
        ("b", ⟨"b", ["a"], []⟩)] []) "r" "a" ∧
    ∀ m, resolve [("r", ⟨"r", ["m", "a"], []⟩), ("a", ⟨"a", ["b"], []⟩),
        ("b", ⟨"b", ["a"], []⟩)] [] "r" ≠ .err (.cycle m) := by
  have hab : niEdge [("r", ⟨"r", ["m", "a"], []⟩), ("a", ⟨"a", ["b"], []⟩),
      ("b", ⟨"b", ["a"], []⟩)] [] "a" "b" := by
    refine ⟨List.not_mem_nil _, List.not_mem_nil _, ⟨"a", ["b"], []⟩, by decide, by decide⟩
  have hba : niEdge [("r", ⟨"r", ["m", "a"], []⟩), ("a", ⟨"a", ["b"], []⟩),
      ("b", ⟨"b", ["a"], []⟩)] [] "b" "a" := by
    refine ⟨List.not_mem_nil _, List.not_mem_nil _, ⟨"b", ["a"], []⟩, by decide, by decide⟩
  have hra : niEdge [("r", ⟨"r", ["m", "a"], []⟩), ("a", ⟨"a", ["b"], []⟩),
      ("b", ⟨"b", ["a"], []⟩)] [] "r" "a" := by
    refine ⟨List.not_mem_nil _, List.not_mem_nil _, ⟨"r", ["m", "a"], []⟩, by decide,
      by decide⟩
  refine ⟨by decide, Relation.TransGen.head hab (Relation.TransGen.single hba),
    Relation.ReflTransGen.single hra, ?_⟩
  intro m hc
  have : VRes.err (ResolveError.notFound "m") = .err (.cycle m) :=
    (by decide : resolve [("r", ⟨"r", ["m", "a"], []⟩), ("a", ⟨"a", ["b"], []⟩),
      ("b", ⟨"b", ["a"], []⟩)] [] "r" = .err (.notFound "m")).symm.trans hc
  injection this with h2
  cases h2

/-- C4 (amended: every name reachable from the root while avoiding installed
names must have a catalog entry): when a dependency cycle through uninstalled
names is reachable from the root, resolve fails with a cycle error naming a
node that lies on such a cycle, and the traversal never exhausts its recursion
bound (which is proportional to the catalog size). -/
theorem resolve_cycle_detection (cat : Catalog) (installed : List String)
    (root : String)
    (hcyc : ∃ c, Relation.ReflTransGen (niEdge cat installed) root c ∧
      Relation.TransGen (niEdge cat installed) c c)
    (hclosed : ∀ m, Relation.ReflTransGen (niEdge cat installed) root m →
      (getPackage cat m).isSome) :
    (∃ m, resolve cat installed root = .err (.cycle m) ∧
      Relation.TransGen (niEdge cat installed) m m) ∧
    resolve cat installed root ≠ .fuelOut := by
  refine ⟨?_, resolve_no_fuelOut cat installed root⟩
  cases hr : resolve cat installed root with
  | fuelOut => exact absurd hr (resolve_no_fuelOut cat installed root)
  | err e =>
    cases e with
    | notFound m =>
      obtain ⟨-, hpath, hnone⟩ := resolve_notFound_spec cat installed root m hr
      have hcl := hclosed m hpath
      rw [hnone] at hcl
      exact absurd hcl (by simp)
    | cycle m =>
      obtain ⟨-, -, hc⟩ := resolve_cycle_spec cat installed root m hr
      exact ⟨m, rfl, hc⟩
  | ok s =>
    exfalso
    obtain ⟨c, hrc, hcc⟩ := hcyc
    obtain ⟨hg, -, hcov, -, hclo⟩ := resolve_ok_spec cat installed root s hr
    have hcni : c ∉ installed := by
      cases hcc with
      | single h => exact h.1
      | tail _ h => exact h.2.1
    have hcvis : c ∈ s.visited := hclo c hrc hcni
    have hvis : ∀ x y, niEdge cat installed x y → x ∈ s.visited → y ∈ s.visited := by
      intro x y hxy hx
      obtain ⟨-, hy, pk, hlkx, hdy⟩ := hxy
      obtain ⟨t1, t2, hdec⟩ := List.append_of_mem hx
      rcases hg.ordered t1 x t2 pk hdec hlkx y hdy with hc' | hc'
      · exact absurd hc' hy
      · exact hdec ▸ List.mem_append_left _ hc'
    have hmem : ∀ x y, Relation.TransGen (niEdge cat installed) x y →
        x ∈ s.visited → y ∈ s.visited := by
      intro x y hxy
      induction hxy with
      | single h => exact hvis _ _ h
      | tail _ h ih => exact fun hx => hvis _ _ h (ih hx)
    have lift : ∀ x y, Relation.TransGen (niEdge cat installed) x y →
        x ∈ s.visited →
        Relation.TransGen
          (fun a b => niEdge cat installed a b ∧ a ∈ s.visited ∧ b ∈ s.visited) x y := by
      intro x y hxy
      induction hxy with
      | single h => exact fun hx => .single ⟨h, hx, hvis _ _ h hx⟩
      | @tail b' y' hxb hb ih =>
        intro hx
        have hb' := hmem _ _ hxb hx
        exact .tail (ih hx) ⟨hb, hb', hvis _ _ hb hb'⟩
    have hTR := lift c c hcc hcvis
    have hTe : Relation.TransGen
        (Function.swap (fun a b => niEdge cat installed a b ∧ a ∈ s.visited ∧
          b ∈ s.visited)) c c :=
      Relation.transGen_swap.mpr hTR
    refine not_transGen_of_before hg.nodup ?_ c hTe
    rintro a b ⟨hedge, hbvis, havis⟩
    obtain ⟨-, hna, pk, hlkb, hda⟩ := hedge
    obtain ⟨t1, t2, hdec⟩ := List.append_of_mem hbvis
    rcases hg.ordered t1 b t2 pk hdec hlkb a hda with hc' | hc'
    · exact absurd hc' hna
    · exact ⟨t1, t2, hdec, hc'⟩

/-- Witness for C4 (amended) at the concrete two-cycle catalog a ↔ b. -/
theorem resolve_cycle_detection_witness :
    (∃ m, resolve [("a", ⟨"a", ["b"], []⟩), ("b", ⟨"b", ["a"], []⟩)] [] "a"
        = .err (.cycle m) ∧
      Relation.TransGen
        (niEdge [("a", ⟨"a", ["b"], []⟩), ("b", ⟨"b", ["a"], []⟩)] []) m m) ∧
    resolve [("a", ⟨"a", ["b"], []⟩), ("b", ⟨"b", ["a"], []⟩)] [] "a"
      ≠ .fuelOut := by
  have hchar : ∀ p d,
      depEdge [("a", ⟨"a", ["b"], []⟩), ("b", ⟨"b", ["a"], []⟩)] p d →
      (p = "a" ∧ d = "b") ∨ (p = "b" ∧ d = "a") := by
    rintro p d ⟨pk, hlk, hd⟩
    rw [getPackage] at hlk
    by_cases hp : "a" = p
    · rw [if_pos hp] at hlk
      injection hlk with hpk
      subst hpk
      have : d ∈ ["b"] := hd
      exact Or.inl ⟨hp.symm, List.mem_singleton.mp this⟩
    · rw [if_neg hp, getPackage] at hlk
      by_cases hp' : "b" = p
      · rw [if_pos hp'] at hlk
        injection hlk with hpk
        subst hpk
        have : d ∈ ["a"] := hd
        exact Or.inr ⟨hp'.symm, List.mem_singleton.mp this⟩
      · rw [if_neg hp'] at hlk
        cases hlk
  have hab : niEdge [("a", ⟨"a", ["b"], []⟩), ("b", ⟨"b", ["a"], []⟩)] [] "a" "b" :=
    ⟨List.not_mem_nil _, List.not_mem_nil _, ⟨"a", ["b"], []⟩, by decide, by decide⟩
  have hba : niEdge [("a", ⟨"a", ["b"], []⟩), ("b", ⟨"b", ["a"], []⟩)] [] "b" "a" :=
    ⟨List.not_mem_nil _, List.not_mem_nil _, ⟨"b", ["a"], []⟩, by decide, by decide⟩
  apply resolve_cycle_detection
  · exact ⟨"a", Relation.ReflTransGen.refl,
      Relation.TransGen.head hab (Relation.TransGen.single hba)⟩
  · intro m hm
    have : m = "a" ∨ m = "b" := by
      induction hm with
      | refl => exact Or.inl rfl
      | tail _ h _ =>
        rcases hchar _ _ h.2.2 with ⟨-, h2⟩ | ⟨-, h2⟩
        · exact Or.inr h2
        · exact Or.inl h2
    rcases this with h | h <;> subst h <;> decide

/-! ## Kahn build-order lemmas (claim C2) -/

theorem mem_depsIn {cat : Catalog} {packages : List String} {p d : String} :
    d ∈ depsIn cat packages p ↔
      d ∈ packages ∧ ∃ pk, getPackage cat p = some pk ∧ d ∈ pk.get_all_dependencies := by
  unfold depsIn
  cases hlk : getPackage cat p with
  | none => simp
  | some pk => simp [List.mem_filter]; tauto

theorem depsIn_nodup (cat : Catalog) (packages : List String) (p : String) :
    (depsIn cat packages p).Nodup := by
  unfold depsIn
  cases getPackage cat p with
  | none => exact List.nodup_nil
  | some pk => exact (List.nodup_dedup _).filter _

theorem mem_kgraph {cat : Catalog} {packages : List String} {dep q : String} :
    q ∈ kgraph cat packages dep ↔ q ∈ packages ∧ dep ∈ depsIn cat packages q := by
  unfold kgraph
  rw [List.mem_dedup, List.mem_filter]
  simp

theorem kgraph_nodup (cat : Catalog) (packages : List String) (dep : String) :
    (kgraph cat packages dep).Nodup := List.nodup_dedup _

theorem filter_notmem_concat_of_mem {l res : List String} {x : String}
    (hnd : l.Nodup) (hx : x ∈ l) (hxr : x ∉ res) :
    ((l.filter (fun d => d ∉ res ++ [x])).length : Int)
      = ((l.filter (fun d => d ∉ res)).length : Int) - 1 := by
  have hsplit : l.filter (fun d => d ∉ res ++ [x])
      = (l.filter (fun d => d ∉ res)).filter (fun d => d ≠ x) := by
    rw [List.filter_filter]
    refine List.filter_congr ?_
    intro b _
    by_cases hbx : b = x <;> by_cases hbr : b ∈ res <;>
      simp [hbx, hbr, List.mem_append]
  have hA : (l.filter (fun d => d ∉ res)).Nodup := hnd.filter _
  have hxA : x ∈ l.filter (fun d => d ∉ res) := by
    rw [List.mem_filter]
    exact ⟨hx, by simp [hxr]⟩
  have herase : (l.filter (fun d => d ∉ res)).filter (fun d => d ≠ x)
      = (l.filter (fun d => d ∉ res)).erase x := by
    rw [hA.erase_eq_filter x]
    refine (List.filter_congr ?_).symm
    intro b _
    by_cases hbx : b = x <;> simp [hbx, bne]
  rw [hsplit, herase, List.length_erase_of_mem hxA]
  have hpos : 0 < (l.filter (fun d => d ∉ res)).length := List.length_pos.mpr
    (List.ne_nil_of_mem hxA)
  omega

theorem filter_notmem_concat_of_not_mem {l res : List String} {x : String}
    (hx : x ∉ l) :
    l.filter (fun d => d ∉ res ++ [x]) = l.filter (fun d => d ∉ res) := by
  refine List.filter_congr ?_
  intro b hb
  have hbx : b ≠ x := fun hc => hx (hc ▸ hb)
  by_cases hbr : b ∈ res <;> simp [hbx, hbr, List.mem_append]

theorem kahnFold_eq (gl : List String) (hnd : gl.Nodup) :
    ∀ (q : List String) (ind : String → Int),
    kahnFold gl q ind
      = (q ++ gl.filter (fun n => ind n = 1),
         fun n => if n ∈ gl then ind n - 1 else ind n) := by
  induction gl with
  | nil =>
    intro q ind
    unfold kahnFold
    rw [List.foldl_nil]
    refine Prod.ext ?_ ?_
    · simp
    · funext n
      simp
  | cons x xs ih =>
    intro q ind
    have hx : x ∉ xs := (List.nodup_cons.mp hnd).1
    have hxs : xs.Nodup := (List.nodup_cons.mp hnd).2
    unfold kahnFold
    rw [List.foldl_cons]
    have hstep : kahnStep (q, ind) x
        = (q ++ if ind x = 1 then [x] else [],
           fun n => if n = x then ind n - 1 else ind n) := by
      unfold kahnStep
      have hcond : ((if x = x then ind x - 1 else ind x) = 0) ↔ ind x = 1 := by
        rw [if_pos rfl]
        omega
      by_cases hc : ind x = 1
      · rw [if_pos (hcond.mpr hc), if_pos hc]
      · rw [if_neg (fun hz => hc (hcond.mp hz)), if_neg hc]
        simp
    rw [hstep]
    have := ih hxs (q ++ if ind x = 1 then [x] else [])
      (fun n => if n = x then ind n - 1 else ind n)
    unfold kahnFold at this
    rw [this]
    refine Prod.ext ?_ ?_
    · show (q ++ if ind x = 1 then [x] else []) ++ xs.filter _
        = q ++ (x :: xs).filter (fun n => decide (ind n = 1))
      rw [List.filter_cons, List.append_assoc]
      congr 1
      have hfeq : xs.filter (fun n => decide ((if n = x then ind n - 1 else ind n) = 1))
          = xs.filter (fun n => decide (ind n = 1)) := by
        refine List.filter_congr ?_
        intro b hb
        have hbx : b ≠ x := fun hc => hx (hc ▸ hb)
        rw [if_neg hbx]
      rw [hfeq]
      by_cases hc : ind x = 1 <;> simp [hc]
    · show (fun n => if n ∈ xs then (if n = x then ind n - 1 else ind n) - 1
          else if n = x then ind n - 1 else ind n)
        = fun n => if n ∈ x :: xs then ind n - 1 else ind n
      funext n
      by_cases hnx : n = x
      · subst hnx
        rw [if_neg hx, if_pos rfl, if_pos (List.mem_cons_self n xs)]
      · rw [if_neg hnx]
        by_cases hnxs : n ∈ xs
        · rw [if_pos hnxs, if_pos (List.mem_cons_of_mem x hnxs)]
        · rw [if_neg hnxs, if_neg (by simp [hnx, hnxs])]

theorem kahn_final (cat : Catalog) (packages : List String) (res : List String)
    (ind : String → Int)
    (i1 : res.Nodup)
    (i2 : ∀ x ∈ res, x ∈ packages)
    (i3 : ∀ p ∈ packages, ind p
      = (((depsIn cat packages p).filter (fun d => d ∉ res)).length : Int))
    (i5 : ∀ l1 m l2, res = l1 ++ m :: l2 → ∀ d ∈ depsIn cat packages m, d ∈ l1)
    (i6 : ∀ p ∈ packages, p ∉ res → ind p ≠ 0) :
    res.Nodup ∧ (∀ x ∈ res, x ∈ packages) ∧
    (∀ l1 m l2, res = l1 ++ m :: l2 → ∀ d ∈ depsIn cat packages m, d ∈ l1) ∧
    (∀ p ∈ packages, p ∉ res → ∃ d ∈ depsIn cat packages p, d ∉ res) := by
  refine ⟨i1, i2, i5, ?_⟩
  intro p hp hpo
  have hne := i6 p hp hpo
  rw [i3 p hp] at hne
  have hlen : ((depsIn cat packages p).filter (fun d => d ∉ res)).length ≠ 0 := by
    exact_mod_cast hne
  obtain ⟨d, hd⟩ := List.exists_mem_of_ne_nil
    ((depsIn cat packages p).filter (fun d => d ∉ res))
    (fun hc => hlen (by rw [hc]; rfl))
  rw [List.mem_filter] at hd
  exact ⟨d, hd.1, by simpa using hd.2⟩

theorem kahnLoop_spec (cat : Catalog) (packages : List String) :
    ∀ fuel (q res : List String) (ind : String → Int),
      (res ++ q).Nodup →
      (∀ x ∈ res ++ q, x ∈ packages) →
      (∀ p ∈ packages, ind p
        = (((depsIn cat packages p).filter (fun d => d ∉ res)).length : Int)) →
      (∀ x ∈ q, ∀ d ∈ depsIn cat packages x, d ∈ res) →
      (∀ l1 m l2, res = l1 ++ m :: l2 → ∀ d ∈ depsIn cat packages m, d ∈ l1) →
      (∀ p ∈ packages, p ∉ res ++ q → ind p ≠ 0) →
      packages.length ≤ fuel + res.length →
      (kahnLoop (kgraph cat packages) fuel q res ind).Nodup ∧
      (∀ x ∈ kahnLoop (kgraph cat packages) fuel q res ind, x ∈ packages) ∧
      (∀ l1 m l2, kahnLoop (kgraph cat packages) fuel q res ind = l1 ++ m :: l2 →
        ∀ d ∈ depsIn cat packages m, d ∈ l1) ∧
      (∀ p ∈ packages, p ∉ kahnLoop (kgraph cat packages) fuel q res ind →
        ∃ d ∈ depsIn cat packages p, d ∉ kahnLoop (kgraph cat packages) fuel q res ind) := by
  intro fuel
  induction fuel with
  | zero =>
    intro q res ind i1 i2 i3 i4 i5 i6 hle
    have hsub : (res ++ q).length ≤ packages.length :=
      (List.subperm_of_subset i1 i2).length_le
    rw [List.length_append] at hsub
    have hq : q = [] := List.length_eq_zero.mp (by omega)
    subst hq
    rw [List.append_nil] at i1 i2 i6
    rw [kahnLoop]
    exact kahn_final cat packages res ind i1 i2 i3 i5 i6
  | succ f ih =>
    intro q res ind i1 i2 i3 i4 i5 i6 hle
    cases q with
    | nil =>
      rw [List.append_nil] at i1 i2 i6
      rw [kahnLoop]
      exact kahn_final cat packages res ind i1 i2 i3 i5 i6
    | cons pkg rest =>
      set newly := (kgraph cat packages pkg).filter (fun n => decide (ind n = 1))
        with hnewly
      set q' := rest ++ newly with hq'
      set res' := res ++ [pkg] with hres'
      set ind' := fun n => if n ∈ kgraph cat packages pkg then ind n - 1 else ind n
        with hind'
      have hloop : kahnLoop (kgraph cat packages) (f + 1) (pkg :: rest) res ind
          = kahnLoop (kgraph cat packages) f q' res' ind' := by
        rw [kahnLoop, kahnFold_eq _ (kgraph_nodup cat packages pkg) rest ind]
      have hpkgq : pkg ∈ res ++ pkg :: rest :=
        List.mem_append_right _ (List.mem_cons_self _ _)
      have hpkg_pack : pkg ∈ packages := i2 pkg hpkgq
      have hdisj := List.disjoint_of_nodup_append i1
      have hpkg_res : pkg ∉ res := fun hc =>
        hdisj hc (List.mem_cons_self _ _)
      -- names enqueued now are exactly those whose in-degree reached zero
      have hnew_char : ∀ x ∈ newly, x ∈ packages ∧ pkg ∈ depsIn cat packages x ∧
          ind x = 1 := by
        intro x hx
        rw [hnewly, List.mem_filter] at hx
        obtain ⟨hkg, hx1⟩ := hx
        rw [mem_kgraph] at hkg
        exact ⟨hkg.1, hkg.2, by simpa using hx1⟩
      have hnew_fresh : ∀ x ∈ newly, x ∉ res ++ pkg :: rest := by
        intro x hx hc
        obtain ⟨hxp, -, hx1⟩ := hnew_char x hx
        have h3x := i3 x hxp
        rcases List.mem_append.mp hc with hcr | hcq
        · -- already emitted: all its deps precede it, so its in-degree is 0
          obtain ⟨l1, l2, hdec⟩ := List.append_of_mem hcr
          have hfil : (depsIn cat packages x).filter (fun d => d ∉ res) = [] := by
            rw [List.filter_eq_nil_iff]
            intro d hd
            have := i5 l1 x l2 hdec d hd
            simp [hdec, this]
          rw [hfil] at h3x
          rw [h3x] at hx1
          cases hx1
        · -- already queued: all its deps are emitted, so its in-degree is 0
          have hfil : (depsIn cat packages x).filter (fun d => d ∉ res) = [] := by
            rw [List.filter_eq_nil_iff]
            intro d hd
            simp [i4 x hcq d hd]
          rw [hfil] at h3x
          rw [h3x] at hx1
          cases hx1
      have hnew_nodup : newly.Nodup := (kgraph_nodup cat packages pkg).filter _
      have hshuffle : res' ++ q' = (res ++ pkg :: rest) ++ newly := by
        rw [hres', hq']
        simp
      have I1 : (res' ++ q').Nodup := by
        rw [hshuffle, List.nodup_append]
        exact ⟨i1, hnew_nodup, fun x hx hx' => hnew_fresh x hx' hx⟩
      have I2 : ∀ x ∈ res' ++ q', x ∈ packages := by
        intro x hx
        rw [hshuffle] at hx
        rcases List.mem_append.mp hx with hx | hx
        · exact i2 x hx
        · exact (hnew_char x hx).1
      have I3 : ∀ p ∈ packages, ind' p
          = (((depsIn cat packages p).filter (fun d => d ∉ res')).length : Int) := by
        intro p hp
        simp only [hind']
        by_cases hpg : p ∈ kgraph cat packages pkg
        · rw [if_pos hpg]
          have hpd : pkg ∈ depsIn cat packages p := (mem_kgraph.mp hpg).2
          rw [i3 p hp, hres',
            filter_notmem_concat_of_mem (depsIn_nodup cat packages p) hpd hpkg_res]
        · rw [if_neg hpg]
          have hpd : pkg ∉ depsIn cat packages p := by
            intro hc
            exact hpg (mem_kgraph.mpr ⟨hp, hc⟩)
          rw [i3 p hp, hres', filter_notmem_concat_of_not_mem hpd]
      have I4 : ∀ x ∈ q', ∀ d ∈ depsIn cat packages x, d ∈ res' := by
        intro x hx d hd
        rw [hq'] at hx
        rcases List.mem_append.mp hx with hx | hx
        · exact List.mem_append_left _ (i4 x (List.mem_cons_of_mem _ hx) d hd)
        · obtain ⟨hxp, hpd, hx1⟩ := hnew_char x hx
          by_cases hdr : d ∈ res
          · exact List.mem_append_left _ hdr
          · have h3x := i3 x hxp
            rw [hx1] at h3x
            have hlen1 : ((depsIn cat packages x).filter
                (fun d => d ∉ res)).length = 1 := by
              exact_mod_cast h3x.symm
            obtain ⟨z, hz⟩ := List.length_eq_one.mp hlen1
            have hpkgz : pkg ∈ [z] := by
              rw [← hz, List.mem_filter]
              exact ⟨hpd, by simp [hpkg_res]⟩
            have hdz : d ∈ [z] := by
              rw [← hz, List.mem_filter]
              exact ⟨hd, by simp [hdr]⟩
            rw [List.mem_singleton.mp hdz, ← List.mem_singleton.mp hpkgz]
            exact List.mem_append_right _ (List.mem_singleton_self pkg)
      have I5 : ∀ l1 m l2, res' = l1 ++ m :: l2 →
          ∀ d ∈ depsIn cat packages m, d ∈ l1 := by
        intro l1 m l2 hdec d hd
        rcases append_singleton_decomp
            (show l1 ++ m :: l2 = res ++ [pkg] from hres' ▸ hdec.symm) with
          ⟨-, hm, hl1⟩ | ⟨l2', -, ht⟩
        · subst hm
          rw [hl1]
          exact i4 m (List.mem_cons_self _ _) d hd
        · exact i5 l1 m l2' ht d hd
      have I6 : ∀ p ∈ packages, p ∉ res' ++ q' → ind' p ≠ 0 := by
        intro p hp hpo
        rw [hshuffle] at hpo
        have hpold : p ∉ res ++ pkg :: rest := fun hc =>
          hpo (List.mem_append_left _ hc)
        have hpnew : p ∉ newly := fun hc => hpo (List.mem_append_right _ hc)
        have hne := i6 p hp hpold
        have hnonneg : 0 ≤ ind p := by
          rw [i3 p hp]
          exact Int.natCast_nonneg _
        simp only [hind']
        by_cases hpg : p ∈ kgraph cat packages pkg
        · rw [if_pos hpg]
          have hne1 : ind p ≠ 1 := by
            intro hc
            exact hpnew (by rw [hnewly, List.mem_filter]; exact ⟨hpg, by simp [hc]⟩)
          omega
        · rw [if_neg hpg]
          exact hne
      have hle' : packages.length ≤ f + res'.length := by
        rw [hres', List.length_append, List.length_singleton]
        omega
      rw [hloop]
      exact ih q' res' ind' I1 I2 I3 I4 I5 I6 hle'

/-! ## Claim C2: Kahn build order -/

/-- C2 counterexample: a duplicated input name is emitted twice by
`get_build_order` (the initial-queue comprehension iterates the input list,
while the graph and in-degree dictionaries deduplicate keys), so the result
does not contain every input name exactly once. -/
theorem build_order_counterexample :
    get_build_order [("a", ⟨"a", [], []⟩)] ["a", "a"] = .ok ["a", "a"] ∧
    (["a", "a"] : List String).count "a" ≠ 1 :=
  ⟨rfl, by decide⟩

/-- C2 (amended: for duplicate-free input lists): `get_build_order` returns a
permutation of the input (every input name exactly once) in which, for every
edge dep→dependent recorded between input names, dep appears strictly before
dependent; and it fails with the cycle error exactly when the recorded edges
contain a dependency cycle among the input names. -/
theorem get_build_order_spec (cat : Catalog) (packages : List String)
    (hnd : packages.Nodup) :
    (∀ r, get_build_order cat packages = .ok r →
      r.Perm packages ∧ ∀ d p, kedge cat packages d p → before r d p) ∧
    (get_build_order cat packages = .error cycleMsg ↔
      ∃ n, Relation.TransGen (kedge cat packages) n n) := by
  set ind0 := indInit cat packages with hind0
  set queue0 := packages.filter (fun p => ind0 p = 0) with hq0
  set L := kahnLoop (kgraph cat packages) (packages.length + 1) queue0 [] ind0
    with hL
  have hgbo : get_build_order cat packages
      = if L.length ≠ packages.length then .error cycleMsg else .ok L := rfl
  have hind0_eq : ∀ p ∈ packages, ind0 p = ((depsIn cat packages p).length : Int) := by
    intro p hp
    rw [hind0]
    unfold indInit
    rw [List.count_eq_one_of_mem hnd hp]
    simp
  have i1 : (([] : List String) ++ queue0).Nodup := by
    rw [List.nil_append, hq0]
    exact hnd.filter _
  have i2 : ∀ x ∈ ([] : List String) ++ queue0, x ∈ packages := by
    intro x hx
    rw [List.nil_append, hq0, List.mem_filter] at hx
    exact hx.1
  have i3 : ∀ p ∈ packages, ind0 p
      = (((depsIn cat packages p).filter
          (fun d => d ∉ ([] : List String))).length : Int) := by
    intro p hp
    have hfil : (depsIn cat packages p).filter (fun d => d ∉ ([] : List String))
        = depsIn cat packages p := by
      simp
    rw [hfil]
    exact hind0_eq p hp
  have i4 : ∀ x ∈ queue0, ∀ d ∈ depsIn cat packages x, d ∈ ([] : List String) := by
    intro x hx d hd
    rw [hq0, List.mem_filter] at hx
    obtain ⟨hxp, hx0⟩ := hx
    have hx0' : ind0 x = 0 := by simpa using hx0
    rw [hind0_eq x hxp] at hx0'
    have hlen0 : (depsIn cat packages x).length = 0 := by exact_mod_cast hx0'
    rw [List.length_eq_zero.mp hlen0] at hd
    cases hd
  have i5 : ∀ l1 m l2, ([] : List String) = l1 ++ m :: l2 →
      ∀ d ∈ depsIn cat packages m, d ∈ l1 := by
    intro l1 m l2 hdec
    exact absurd hdec.symm (by simp)
  have i6 : ∀ p ∈ packages, p ∉ ([] : List String) ++ queue0 → ind0 p ≠ 0 := by
    intro p hp hpo hz
    rw [List.nil_append] at hpo
    exact hpo (by rw [hq0, List.mem_filter]; exact ⟨hp, by simp [hz]⟩)
  have hle : packages.length ≤ (packages.length + 1) + ([] : List String).length := by
    simp
  obtain ⟨Lnodup, Lsub, Lord, Lrem⟩ :=
    kahnLoop_spec cat packages (packages.length + 1) queue0 [] ind0
      i1 i2 i3 i4 i5 i6 hle
  rw [← hL] at Lnodup Lsub Lord Lrem
  have hbefore : L.length = packages.length →
      ∀ d p, kedge cat packages d p → before L d p := by
    intro hlen d p hedge
    obtain ⟨hp, hd⟩ := hedge
    have hperm : L.Perm packages :=
      (List.subperm_of_subset Lnodup Lsub).perm_of_length_le (by omega)
    have hpL : p ∈ L := hperm.mem_iff.mpr hp
    obtain ⟨l1, l2, hdec⟩ := List.append_of_mem hpL
    exact ⟨l1, l2, hdec, Lord l1 p l2 hdec d hd⟩
  constructor
  · intro r hok
    rw [hgbo] at hok
    by_cases hlen : L.length ≠ packages.length
    · rw [if_pos hlen] at hok
      cases hok
    · rw [if_neg hlen] at hok
      have hlen' := not_ne_iff.mp hlen
      cases hok
      exact ⟨(List.subperm_of_subset Lnodup Lsub).perm_of_length_le (by omega),
        hbefore hlen'⟩
  · constructor
    · intro herr
      rw [hgbo] at herr
      by_cases hlen : L.length ≠ packages.length
      · have hSne : packages.filter (fun p => p ∉ L) ≠ [] := by
          intro hc
          have hall : ∀ p ∈ packages, p ∈ L := by
            intro p hp
            by_contra hcp
            have : p ∈ packages.filter (fun p => p ∉ L) := by
              rw [List.mem_filter]
              exact ⟨hp, by simp [hcp]⟩
            rw [hc] at this
            cases this
          have : packages.length ≤ L.length :=
            (List.subperm_of_subset hnd hall).length_le
          have hsub : L.length ≤ packages.length :=
            (List.subperm_of_subset Lnodup Lsub).length_le
          omega
        refine exists_cycle_of_forall_pred hSne ?_
        intro p hp
        rw [List.mem_filter] at hp
        obtain ⟨hpp, hpL⟩ := hp
        have hpL' : p ∉ L := by simpa using hpL
        obtain ⟨d, hd, hdL⟩ := Lrem p hpp hpL'
        have hdp : d ∈ packages := (mem_depsIn.mp hd).1
        refine ⟨d, ?_, hpp, hd⟩
        rw [List.mem_filter]
        exact ⟨hdp, by simp [hdL]⟩
      · rw [if_neg hlen] at herr
        cases herr
    · rintro ⟨n, hT⟩
      rw [hgbo]
      by_cases hlen : L.length ≠ packages.length
      · rw [if_pos hlen]
      · exfalso
        have hlen' := not_ne_iff.mp hlen
        exact not_transGen_of_before Lnodup (fun a b hab => hbefore hlen' a b hab) n hT

/-- Witness for C2 (amended) at the concrete duplicate-free input [b, a] with
b depending on a. -/
theorem get_build_order_spec_witness :
    (["b", "a"] : List String).Nodup ∧
    ((∀ r, get_build_order [("b", ⟨"b", ["a"], []⟩), ("a", ⟨"a", [], []⟩)] ["b", "a"]
        = .ok r →
      r.Perm ["b", "a"] ∧
        ∀ d p, kedge [("b", ⟨"b", ["a"], []⟩), ("a", ⟨"a", [], []⟩)] ["b", "a"] d p →
          before r d p) ∧
    (get_build_order [("b", ⟨"b", ["a"], []⟩), ("a", ⟨"a", [], []⟩)] ["b", "a"]
        = .error cycleMsg ↔
      ∃ n, Relation.TransGen
        (kedge [("b", ⟨"b", ["a"], []⟩), ("a", ⟨"a", [], []⟩)] ["b", "a"]) n n)) :=
  ⟨by decide,
    get_build_order_spec [("b", ⟨"b", ["a"], []⟩), ("a", ⟨"a", [], []⟩)] ["b", "a"]
      (by decide)⟩

/-! ## Claim C3: installed names are trusted at face value -/

/-- C3: the resolver never reads the manifest of a name in the installed set —
the result of `resolve` is unchanged under arbitrary modification (including
removal or corruption) of catalog entries of installed names; an installed
name never appears in the result; and in particular resolving a package whose
sole dependency is installed yields only the package itself. -/
theorem resolve_trusts_installed (cat cat' : Catalog) (installed : List String)
    (root : String)
    (hagree : ∀ n, n ∉ installed → getPackage cat n = getPackage cat' n) :
    resolve cat installed root = resolve cat' installed root ∧
    (∀ s, resolve cat installed root = .ok s → ∀ m ∈ installed, m ∉ s.resolved) ∧
    (∀ pk d, getPackage cat root = some pk → pk.get_all_dependencies = [d] →
      d ∈ installed → root ∉ installed →
      resolve cat installed root = .ok ⟨[root], [root], []⟩) := by
  refine ⟨?_, ?_, ?_⟩
  · -- independence from installed entries, including differing catalog sizes
    have h1 : visit cat installed ((catNames cat).length + 2) root ⟨[], [], []⟩
        ≠ .fuelOut := resolve_no_fuelOut cat installed root
    have h2 : visit cat' installed ((catNames cat').length + 2) root ⟨[], [], []⟩
        ≠ .fuelOut := resolve_no_fuelOut cat' installed root
    set F := max ((catNames cat).length + 2) ((catNames cat').length + 2) with hF
    have e1 : visit cat installed F root ⟨[], [], []⟩
        = visit cat installed ((catNames cat).length + 2) root ⟨[], [], []⟩ :=
      visit_fuel_mono _ _ _ _ (le_max_left _ _) h1
    have e2 : visit cat' installed F root ⟨[], [], []⟩
        = visit cat' installed ((catNames cat').length + 2) root ⟨[], [], []⟩ :=
      visit_fuel_mono _ _ _ _ (le_max_right _ _) h2
    have e3 : visit cat installed F root ⟨[], [], []⟩
        = visit cat' installed F root ⟨[], [], []⟩ := visit_congr hagree F root _
    show visit cat installed ((catNames cat).length + 2) root ⟨[], [], []⟩
        = visit cat' installed ((catNames cat').length + 2) root ⟨[], [], []⟩
    rw [← e1, e3, e2]
  · intro s hok m hm
    obtain ⟨hg, -, -, -, -⟩ := resolve_ok_spec cat installed root s hok
    rw [hg.res_eq]
    intro hc
    exact hg.not_inst m hc hm
  · intro pk d hlk hdeps hd hroot
    have key : ∀ f, visit cat installed (f + 2) root ⟨[], [], []⟩
        = .ok ⟨[root], [root], []⟩ := by
      intro f
      show visit cat installed (f + 1 + 1) root ⟨[], [], []⟩ = .ok ⟨[root], [root], []⟩
      rw [visit, if_neg hroot, if_neg (List.not_mem_nil root),
        if_neg (List.not_mem_nil root), hlk]
      dsimp only
      rw [hdeps, visitList, visit, if_pos hd]
      simp only [visitList]
      simp [List.erase_cons_head]
    exact key (catNames cat).length

/-- Witness for C3 at the concrete catalog {p → d} with d installed: the
resolution is independent of d's (absent) manifest and returns only p. -/
theorem resolve_trusts_installed_witness :
    (∀ n, n ∉ ["d"] →
      getPackage [("p", ⟨"p", ["d"], []⟩)] n = getPackage [("p", ⟨"p", ["d"], []⟩)] n) ∧
    resolve [("p", ⟨"p", ["d"], []⟩)] ["d"] "p" = .ok ⟨["p"], ["p"], []⟩ :=
  ⟨fun _ _ => rfl,
    (resolve_trusts_installed [("p", ⟨"p", ["d"], []⟩)] [("p", ⟨"p", ["d"], []⟩)]
      ["d"] "p" (fun _ _ => rfl)).2.2 ⟨"p", ["d"], []⟩ "d" rfl (by decide) (by decide)
      (by decide)⟩

/-- Witness for C10 (amended) at a concrete empty catalog and empty database. -/
theorem install_file_fallback_lookup_error_witness :
    (getPackage ([] : Catalog) "spec.json" = none) ∧
      ((fun _ => some (⟨"x", [], []⟩ : Pkg)) "spec.json" = some (⟨"x", [], []⟩ : Pkg)) ∧
      (getPackage ([] : Catalog) "x" = none) ∧
      ("x" ∉ dbNames []) ∧
      install ⟨[], fun _ => some ⟨"x", [], []⟩, fun _ => "r"⟩ [] "spec.json" false
        = ([], [], .resolveFailed (.notFound "x")) :=
  ⟨rfl, rfl, rfl, by decide,
    install_file_fallback_lookup_error ⟨[], fun _ => some ⟨"x", [], []⟩, fun _ => "r"⟩
      [] "spec.json" ⟨"x", [], []⟩ false rfl rfl rfl (by decide)⟩

end Tsi
